import Mathlib

/-!
Verification development for the Flow typing-replay engine (content.js).

The engine's state and operations are shallowly embedded as Lean
definitions translated from the source:

* the pacing state machine (`FlowTypingEngine` fields `isTyping`,
  `isPaused`, `currentPosition`, `textToType`, `typingTimeout`) with its
  operations `typeNextCharacter`, `pauseTyping`, `resumeTyping`,
  `stopTyping`;
* the delay computation `calculateDelay`;
* the insertion mechanism chain `typeCharacter`;
* the editor locator `findGoogleDocsEditor`;
* the formatting parser `parseFormattingMarkers`;
* the text normalizer `cleanAndNormalizeText`.

Strings are modelled as `List Char`; JS numbers used by `calculateDelay`
are modelled as rationals; the single pending `setTimeout` is modelled as
a boolean `pending` flag, and the firing of that timer as the `tick`
transition.
-/

namespace Flow

/-- Events the engine reports to the UI layer (`sendMessage` calls and the
character insertions performed by `typeCharacter`).  A `typed i c` event
records that the character `c` at stream index `i` was executed. -/
inductive Ev where
  | typed (i : Nat) (c : Char)
  | progress (current total : Nat)
  | typingComplete
  | typingStopped
  | typingError
deriving DecidableEq

/-- Mutable state of `FlowTypingEngine` relevant to the pacing state
machine: `isTyping`, `isPaused`, `currentPosition`, `textToType`, and
whether a `typingTimeout` tick is currently scheduled (`pending`). -/
structure Engine where
  isTyping : Bool
  isPaused : Bool
  currentPosition : Nat
  textToType : List Char
  pending : Bool
deriving DecidableEq

/-- Embedding of `typeNextCharacter` (content.js lines 276-316): bail out
when not typing or paused; complete when the cursor has reached the end;
otherwise execute the character at the cursor, advance, emit progress and
schedule the next tick. -/
def typeNextCharacter (s : Engine) : Engine × List Ev :=
  if ¬ s.isTyping ∨ s.isPaused then (s, [])
  else if s.textToType.length ≤ s.currentPosition then
    ({ s with isTyping := false, isPaused := false, pending := false }, [Ev.typingComplete])
  else
    let c := s.textToType.getD s.currentPosition ' '
    let pos := s.currentPosition + 1
    ({ s with currentPosition := pos, pending := true },
      [Ev.typed s.currentPosition c, Ev.progress pos s.textToType.length])

/-- Embedding of `pauseTyping` (lines 251-258): set the paused flag and
clear any scheduled tick.  The source performs this unconditionally. -/
def pauseTyping (s : Engine) : Engine × List Ev :=
  ({ s with isPaused := true, pending := false }, [])

/-- Embedding of `resumeTyping` (lines 260-266): clear the paused flag
and, when typing with the cursor strictly before the end of the text,
invoke `typeNextCharacter` directly. -/
def resumeTyping (s : Engine) : Engine × List Ev :=
  if s.isTyping = true ∧ s.currentPosition < s.textToType.length then
    typeNextCharacter { s with isPaused := false }
  else ({ s with isPaused := false }, [])

/-- Embedding of `stopTyping` (lines 236-249): clear both flags and any
scheduled tick, and report `typingStopped`. -/
def stopTyping (s : Engine) : Engine × List Ev :=
  ({ s with isTyping := false, isPaused := false, pending := false }, [Ev.typingStopped])

/-- A scheduled `typingTimeout` fires: the timer is consumed and
`typeNextCharacter` runs.  Only meaningful when `s.pending = true`. -/
def tick (s : Engine) : Engine × List Ev :=
  typeNextCharacter { s with pending := false }

/-- Entering a run (`startTyping` after text processing): cursor reset to
0, typing flag set, paused cleared, and the first tick scheduled. -/
def startRun (text : List Char) (s : Engine) : Engine × List Ev :=
  ({ s with textToType := text, currentPosition := 0,
            isTyping := true, isPaused := false, pending := true }, [])

/-- State invariant of reachable engine states: a tick is never pending
while paused (pause clears the timeout and `typeNextCharacter` refuses to
schedule while paused) nor while not typing (stop and completion clear
the timeout). -/
def EngineInv (s : Engine) : Prop :=
  (s.isPaused = true → s.pending = false) ∧ (s.isTyping = false → s.pending = false)

/-- One spontaneous transition: a pending tick fires. -/
def TickStep (a b : Engine) : Prop := a.pending = true ∧ b = (tick a).1

/-- Zero or more spontaneous tick transitions. -/
def Reaches : Engine → Engine → Prop := Relation.ReflTransGen TickStep

/-- Embedding of `calculateDelay` (content.js lines 585-595) over the
rationals: `baseDelay = 60000 / (wpm * 5)`; with natural variations
enabled a jitter `(rand - 0.5) * 0.6` is applied multiplicatively, where
`rand` models the `Math.random()` draw in `[0, 1)`; the result is clamped
to a minimum of 50. -/
def calculateDelay (wpm : ℚ) (naturalVariations : Bool) (rand : ℚ) : ℚ :=
  let baseDelay : ℚ := 60000 / (wpm * 5)
  if naturalVariations then
    let variation : ℚ := (rand - 1/2) * (6/10)
    max 50 (baseDelay * (1 + variation))
  else
    max 50 baseDelay

/-- The four insertion mechanisms of `typeCharacter` (content.js lines
318-437), in chain order. -/
inductive Mech where
  | execCommand
  | clipboard
  | keyboardEvents
  | inputEvents
deriving DecidableEq

/-- Environment outcomes of the host surface consumed by one
`typeCharacter` call: results of the `document.execCommand` calls,
clipboard availability and outcomes, and whether key-event dispatch
throws. -/
structure InsertEnv where
  execParagraphOk : Bool
  execHtmlParagraphOk : Bool
  execHtmlBrOk : Bool
  execInsertTextOk : Bool
  execThrows : Bool
  clipboardAvailable : Bool
  clipboardWriteThrows : Bool
  pasteOk : Bool
  keyboardThrows : Bool
deriving DecidableEq

/-- Embedding of `typeCharacter` (content.js lines 318-437), returning the
list of mechanisms attempted, in order.  `single` is
`settings.singleMethod !== false`; `isEnter` is `char === '\n'`.  In
single-method mode the function returns as soon as a mechanism succeeds
(mechanism 3 counts as succeeded whenever its dispatch does not throw);
mechanism 2 is only entered when mechanism 1 failed and the character is
not a line break; mechanism 4 is guarded by
`!useSingleMethod && !typingSucceeded`. -/
def typeCharacter (single isEnter : Bool) (env : InsertEnv) : List Mech :=
  let execSuccess :=
    !env.execThrows &&
      (if isEnter then env.execParagraphOk || env.execHtmlParagraphOk || env.execHtmlBrOk
       else env.execInsertTextOk)
  let attempted := [Mech.execCommand]
  let succeeded := execSuccess
  if succeeded && single then attempted else
  let m2 := !succeeded && !isEnter
  let clipSuccess :=
    m2 && env.clipboardAvailable && !env.clipboardWriteThrows && env.pasteOk
  let attempted := attempted ++ if m2 then [Mech.clipboard] else []
  let succeeded := succeeded || clipSuccess
  if clipSuccess && single then attempted else
  let m3 := !succeeded || !single
  let attempted := attempted ++ if m3 then [Mech.keyboardEvents] else []
  let k3 := m3 && !env.keyboardThrows
  let succeeded := succeeded || k3
  if k3 && single then attempted else
  let m4 := !single && !succeeded
  attempted ++ if m4 then [Mech.inputEvents] else []

/-- Properties of one DOM element consulted by `findGoogleDocsEditor` and
`isValidEditor`: whether it is an iframe, whether iframe content access
yields a null document without throwing (the only iframe case that does
not return), layout visibility, the `docs-material` exclusion, and
membership in the main content area. -/
structure Elem where
  isIframe : Bool
  iframeDocNull : Bool
  offsetParentSome : Bool
  offsetHeight : Nat
  offsetWidth : Nat
  docsMaterial : Bool
  inMainContent : Bool
deriving DecidableEq

/-- Embedding of `isValidEditor` (content.js lines 135-142). -/
def isValidEditor (e : Elem) : Bool :=
  e.offsetParentSome && decide (0 < e.offsetHeight) && decide (0 < e.offsetWidth)
    && !e.docsMaterial

/-- Query results of the page, in the scan order used by
`findGoogleDocsEditor`: elements of the three iframe/input selectors, the
contenteditable elements, the container selectors, and `document.body`
(always present in a loaded HTML document). -/
structure Dom where
  primarySelectorElems : List Elem
  contenteditableElems : List Elem
  containerSelectorElems : List Elem
  body : Elem
deriving DecidableEq

/-- Whether an element of the first selector group causes a return: an
iframe returns unless its content document is null without an access
exception; a non-iframe returns when `isValidEditor` holds. -/
def primaryHit (e : Elem) : Bool :=
  (e.isIframe && !e.iframeDocNull) || (!e.isIframe && isValidEditor e)

/-- Embedding of `findGoogleDocsEditor` (content.js lines 53-133): scan
the iframe/input selectors, then contenteditable elements that are valid
and in the main content, then visible container elements, and finally
fall back to `document.body`. -/
def findGoogleDocsEditor (dom : Dom) : Option Elem :=
  match dom.primarySelectorElems.find? primaryHit with
  | some e => some e
  | none =>
    match dom.contenteditableElems.find? (fun e => isValidEditor e && e.inMainContent) with
    | some e => some e
    | none =>
      match dom.containerSelectorElems.find? (fun e =>
          decide (0 < e.offsetWidth) && decide (0 < e.offsetHeight)) with
      | some e => some e
      | none => some dom.body

/-- The editor-acquisition branch of `startTyping` (content.js lines
216-223): `typingError` is reported exactly when `findGoogleDocsEditor`
produced nothing. -/
def startAcquireEvents (dom : Dom) : List Ev :=
  match findGoogleDocsEditor dom with
  | none => [Ev.typingError]
  | some _ => []

/-- Kinds of inline formatting recognised by the parser. -/
inductive FKind where
  | bold
  | italic
  | underline
deriving DecidableEq

/-- Edge of a formatting span (the `action` field). -/
inductive FEdge where
  | startEdge
  | endEdge
deriving DecidableEq

/-- One recorded formatting event value: `{ type, action }`. -/
structure FmtEv where
  kind : FKind
  edge : FEdge
deriving DecidableEq

/-- JS `Map.prototype.set` on the offset-keyed `formattingMap`: replace
the value in place when the key is present, append otherwise. -/
def mapSet (m : List (Nat × FmtEv)) (k : Nat) (v : FmtEv) : List (Nat × FmtEv) :=
  if m.any (fun p => p.1 == k) then
    m.map (fun p => if p.1 = k then (k, v) else p)
  else m ++ [(k, v)]

/-- JS regular-expression line terminators, which the dot does not
match. -/
def lineTerm (c : Char) : Bool :=
  c == '\n' || c == '\r' || c.toNat == 0x2028 || c.toNat == 0x2029

/-- Strip the exact marker `mk` from the front of `l`. -/
def dropStart : List Char → List Char → Option (List Char)
  | [], l => some l
  | _ :: _, [] => none
  | a :: as, b :: bs => if a = b then dropStart as bs else none

/-- Lazy `(.*?)` followed by the closing marker `mk`: the shortest split
`content ++ mk ++ rest` of `l` whose content contains no line terminator
(the JS dot without the s flag does not match line terminators). -/
def lazyFind (mk : List Char) : List Char → Option (List Char × List Char)
  | [] => (dropStart mk []).map fun r => (([] : List Char), r)
  | c :: rest =>
    match dropStart mk (c :: rest) with
    | some r => some ([], r)
    | none =>
      if lineTerm c then none
      else (lazyFind mk rest).map fun p => (c :: p.1, p.2)

/-- Attempt a symmetric-marker match (`mk`, lazy content, `mk`) at the
current position, as in `(\*\*|__)(.*?)\1` and `~~(.*?)~~`; produces the
content and the remainder after the closing marker. -/
def markerMatch (mk l : List Char) : Option (List Char × List Char) :=
  match dropStart mk l with
  | some r => lazyFind mk r
  | none => none

/-- The bold pass of `parseFormattingMarkers` (content.js lines 694-702),
pattern `(\*\*|__)(.*?)\1` with the `**` alternative tried first: `idx`
is the match index in this pass's input, `off` the number of marker
characters removed so far, so `idx - off` is an offset into the output;
each match records a Start at that offset and an End at offset + content
length, then adds 4 to `off`.  Fueled scanner; every step consumes at
least one character, so fuel = input length suffices. -/
def boldGo : Nat → List Char → Nat → Nat → List (Nat × FmtEv) →
    List Char × List (Nat × FmtEv)
  | 0, l, _, _, m => (l, m)
  | _ + 1, [], _, _, m => ([], m)
  | fuel + 1, c :: rest, idx, off, m =>
    match (markerMatch ['*', '*'] (c :: rest)).orElse
        (fun _ => markerMatch ['_', '_'] (c :: rest)) with
    | some (content, after) =>
      let st := idx - off
      let en := st + content.length
      let m1 := mapSet (mapSet m st ⟨FKind.bold, FEdge.startEdge⟩) en
        ⟨FKind.bold, FEdge.endEdge⟩
      let r := boldGo fuel after (idx + content.length + 4) (off + 4) m1
      (content ++ r.1, r.2)
    | none =>
      let r := boldGo fuel rest (idx + 1) off m
      (c :: r.1, r.2)

/-- Attempt one italic branch at delimiter `d`: greedy `[^d]+` content,
then the closing `d` not followed by another `d`.  Backtracking cannot
shorten the greedy content (every shorter cut ends at a non-delimiter),
so greedy-then-check is exact. -/
def delimTry (d : Char) (rest : List Char) : Option (List Char × List Char) :=
  let content := rest.takeWhile (fun x => decide (x ≠ d))
  match rest.dropWhile (fun x => decide (x ≠ d)) with
  | _ :: tail =>
    if content ≠ [] ∧ tail.head? ≠ some d then some (content, tail) else none
  | [] => none

/-- Attempt the italic match at one position of the pattern
`(?<!\*)\*([^*]+)\*(?!\*)|(?<!_)_([^_]+)_(?!_)`, with lookbehind given by
`prev`, the character immediately before the scan position in this
pass's input. -/
def italicTry (prev : Option Char) (c : Char) (rest : List Char) :
    Option (List Char × List Char) :=
  if c = '*' ∧ prev ≠ some '*' then delimTry '*' rest
  else if c = '_' ∧ prev ≠ some '_' then delimTry '_' rest
  else none

/-- The italic pass of `parseFormattingMarkers` (content.js lines
704-716): offset compensation `match.length - content.length = 2` per
match; after a match the lookbehind character is the closing
delimiter. -/
def italicGo : Nat → Option Char → List Char → Nat → Nat → List (Nat × FmtEv) →
    List Char × List (Nat × FmtEv)
  | 0, _, l, _, _, m => (l, m)
  | _ + 1, _, [], _, _, m => ([], m)
  | fuel + 1, prev, c :: rest, idx, off, m =>
    match italicTry prev c rest with
    | some (content, tail) =>
      let st := idx - off
      let en := st + content.length
      let m1 := mapSet (mapSet m st ⟨FKind.italic, FEdge.startEdge⟩) en
        ⟨FKind.italic, FEdge.endEdge⟩
      let r := italicGo fuel (some c) tail (idx + content.length + 2) (off + 2) m1
      (content ++ r.1, r.2)
    | none =>
      let r := italicGo fuel (some c) rest (idx + 1) off m
      (c :: r.1, r.2)

/-- The underline pass of `parseFormattingMarkers` (content.js lines
718-729), pattern `~~(.*?)~~`, adding 4 to `off` per match. -/
def underlineGo : Nat → List Char → Nat → Nat → List (Nat × FmtEv) →
    List Char × List (Nat × FmtEv)
  | 0, l, _, _, m => (l, m)
  | _ + 1, [], _, _, m => ([], m)
  | fuel + 1, c :: rest, idx, off, m =>
    match markerMatch ['~', '~'] (c :: rest) with
    | some (content, after) =>
      let st := idx - off
      let en := st + content.length
      let m1 := mapSet (mapSet m st ⟨FKind.underline, FEdge.startEdge⟩) en
        ⟨FKind.underline, FEdge.endEdge⟩
      let r := underlineGo fuel after (idx + content.length + 4) (off + 4) m1
      (content ++ r.1, r.2)
    | none =>
      let r := underlineGo fuel rest (idx + 1) off m
      (c :: r.1, r.2)

/-- Embedding of `parseFormattingMarkers` (content.js lines 688-732):
three replace passes — bold, then italic, then underline — each
stripping its own markers and recording events into the shared
offset-keyed map. -/
def parseFormattingMarkers (text : List Char) : List Char × List (Nat × FmtEv) :=
  let b := boldGo text.length text 0 0 []
  let i := italicGo b.1.length none b.1 0 0 b.2
  let u := underlineGo i.1.length i.1 0 0 i.2
  (u.1, u.2)

/-- ECMAScript regular-expression whitespace, the class matched by `\s`:
tab, the line terminators, space, and the Unicode space separators
(U+00A0, U+1680, U+2000-U+200A, U+2028, U+2029, U+202F, U+205F, U+3000,
U+FEFF). -/
def jsSpace (c : Char) : Bool :=
  decide (c.toNat ∈ [9, 10, 11, 12, 13, 32, 0xA0, 0x1680, 0x2028, 0x2029,
    0x202F, 0x205F, 0x3000, 0xFEFF])
    || (decide (0x2000 ≤ c.toNat) && decide (c.toNat ≤ 0x200A))

/-- The class `[ \t]` used by the space-cleanup steps. -/
def blank (c : Char) : Bool := c == ' ' || c == '\t'

/-- Modelled from the spec: step 1 of the normalizer is Unicode canonical
decomposition via the host function `String.prototype.normalize('NFD')`,
which is not part of this repository.  It is modelled as the identity,
which is exact on strings of decomposition-free characters; every
character class the normalizer manipulates is decomposition-free. -/
def nfd : List Char → List Char := fun l => l

/-- Embedding of `replace(/\r\n/g, '\n')` (content.js line 633). -/
def crlf : List Char → List Char
  | [] => []
  | [c] => [c]
  | c :: d :: rest =>
    if c = '\r' ∧ d = '\n' then '\n' :: crlf rest
    else c :: crlf (d :: rest)

/-- Embedding of `replace(/\r/g, '\n')` (content.js line 634). -/
def crmap : List Char → List Char :=
  List.map (fun c => if c = '\r' then '\n' else c)

/-- Whether `\s*\n` matches at the front of `l`: zero or more jsSpace
characters followed by a newline. -/
def reach : List Char → Bool
  | [] => false
  | c :: rest => c == '\n' || (jsSpace c && reach rest)

/-- Greedy-backtracking tail of `\s*\n` at the front of `l`: the suffix
after the last newline reachable through jsSpace characters, as matched
by the `\s*\n` part of `/\n\s*\n/` after its opening newline. -/
def nlSplit : List Char → Option (List Char)
  | [] => none
  | c :: rest =>
    if c = '\n' then
      match nlSplit rest with
      | some r => some r
      | none => some rest
    else if jsSpace c then nlSplit rest
    else none

/-- Fueled scanner for `replace(/\n\s*\n/g, '\n\n')` (content.js line
637).  Every step consumes at least one input character, so fuel = input
length suffices. -/
def paraGo : Nat → List Char → List Char
  | 0, l => l
  | _ + 1, [] => []
  | fuel + 1, c :: rest =>
    if c = '\n' then
      match nlSplit rest with
      | some r => '\n' :: '\n' :: paraGo fuel r
      | none => '\n' :: paraGo fuel rest
    else c :: paraGo fuel rest

/-- The paragraph-break normalization pass. -/
def paraCollapse (l : List Char) : List Char := paraGo l.length l

/-- A single `replace` with a character-class pattern `t` and a fixed
replacement string `r`: each matching character is replaced by `r`
independently. -/
def rePlace (t : Char → Bool) (r : List Char) (l : List Char) : List Char :=
  l.flatMap (fun c => if t c then r else [c])

/-- Smart single quotes U+2018, U+2019 (content.js line 642). -/
def smartSingle (c : Char) : Bool := c.toNat == 0x2018 || c.toNat == 0x2019

/-- Smart double quotes U+201C, U+201D (line 643). -/
def smartDouble (c : Char) : Bool := c.toNat == 0x201C || c.toNat == 0x201D

/-- En dash and em dash U+2013, U+2014 (line 646). -/
def dashChar (c : Char) : Bool := c.toNat == 0x2013 || c.toNat == 0x2014

/-- Horizontal ellipsis U+2026 (line 649). -/
def ellipsisChar (c : Char) : Bool := c.toNat == 0x2026

/-- Non-breaking space U+00A0 (line 652). -/
def nbspChar (c : Char) : Bool := c.toNat == 0xA0

/-- The space and line-separator class U+2000-U+200B, U+2028, U+2029
(line 655). -/
def uspaceChar (c : Char) : Bool :=
  (decide (0x2000 ≤ c.toNat) && decide (c.toNat ≤ 0x200B))
    || c.toNat == 0x2028 || c.toNat == 0x2029

/-- The zero-width class U+200B-U+200D, U+FEFF (line 658). -/
def zeroWidthChar (c : Char) : Bool :=
  (decide (0x200B ≤ c.toNat) && decide (c.toNat ≤ 0x200D)) || c.toNat == 0xFEFF

/-- Combining diacritical marks U+0300-U+036F (line 661). -/
def combiningChar (c : Char) : Bool :=
  decide (0x300 ≤ c.toNat) && decide (c.toNat ≤ 0x36F)

/-- Prime marks U+2032, U+2033 (line 664). -/
def primeChar (c : Char) : Bool := c.toNat == 0x2032 || c.toNat == 0x2033

/-- Bullet characters U+2022, U+2023, U+25E6, U+2043 (line 667). -/
def bulletChar (c : Char) : Bool :=
  c.toNat == 0x2022 || c.toNat == 0x2023 || c.toNat == 0x25E6 || c.toNat == 0x2043

/-- Copyright sign U+00A9 (line 670). -/
def copyrightChar (c : Char) : Bool := c.toNat == 0xA9

/-- Registered sign U+00AE (line 671). -/
def registeredChar (c : Char) : Bool := c.toNat == 0xAE

/-- Trade mark sign U+2122 (line 672). -/
def trademarkChar (c : Char) : Bool := c.toNat == 0x2122

/-- The character-substitution steps of the normalizer (content.js lines
640-672), in source order. -/
def substitutions (l : List Char) : List Char :=
  rePlace trademarkChar ['(', 'T', 'M', ')'] (
    rePlace registeredChar ['(', 'R', ')'] (
      rePlace copyrightChar ['(', 'c', ')'] (
        rePlace bulletChar ['*'] (
          rePlace primeChar ['"'] (
            rePlace combiningChar [] (
              rePlace zeroWidthChar [] (
                rePlace uspaceChar [' '] (
                  rePlace nbspChar [' '] (
                    rePlace ellipsisChar ['.', '.', '.'] (
                      rePlace dashChar ['-'] (
                        rePlace smartDouble ['"'] (
                          rePlace smartSingle ['\''] l))))))))))))

/-- Head-of-list tests used by the cleanup invariants. -/
def headBlank : List Char → Bool
  | [] => false
  | d :: _ => blank d

/-- Whether the list starts with a newline. -/
def headNl : List Char → Bool
  | [] => false
  | d :: _ => d == '\n'

/-- Whether the list starts with a jsSpace character. -/
def headSpace : List Char → Bool
  | [] => false
  | d :: _ => jsSpace d

/-- Fueled scanner for `replace(/[ \t]+/g, ' ')` (content.js line 675). -/
def scGo : Nat → List Char → List Char
  | 0, l => l
  | _ + 1, [] => []
  | fuel + 1, c :: rest =>
    if blank c then ' ' :: scGo fuel (rest.dropWhile blank)
    else c :: scGo fuel rest

/-- The run-of-blanks collapse pass. -/
def spaceCollapse (l : List Char) : List Char := scGo l.length l

/-- Fueled scanner for `replace(/[ \t]*\n[ \t]*/g, '\n')` (content.js
line 676): a newline, or a blank run leading to a newline, is emitted as
a bare newline with the surrounding blank runs consumed; a blank not
leading to a newline is emitted unchanged (the leftmost-match scan then
retries from the next character). -/
def snGo : Nat → List Char → List Char
  | 0, l => l
  | _ + 1, [] => []
  | fuel + 1, c :: rest =>
    if c = '\n' then '\n' :: snGo fuel (rest.dropWhile blank)
    else if blank c = true ∧ headNl (rest.dropWhile blank) = true then
      '\n' :: snGo fuel (((rest.dropWhile blank).drop 1).dropWhile blank)
    else c :: snGo fuel rest

/-- The strip-blanks-around-newlines pass. -/
def stripNL (l : List Char) : List Char := snGo l.length l

/-- Embedding of `replace(/^\s+|\s+$/g, '')` (content.js line 679). -/
def trimEnds (l : List Char) : List Char :=
  ((l.dropWhile jsSpace).reverse.dropWhile jsSpace).reverse

/-- Embedding of `cleanAndNormalizeText` (content.js lines 622-686): the
falsy-input guard, NFD normalization, line-break unification, paragraph
collapse, the substitution table, blank-run collapse, blank stripping
around newlines, and trimming, in source order. -/
def cleanAndNormalizeText (text : List Char) : List Char :=
  if text = [] then []
  else
    trimEnds (stripNL (spaceCollapse (substitutions
      (paraCollapse (crmap (crlf (nfd text)))))))

/-- The disallowed substitution set of the specification: the union of
all character classes the normalizer replaces or removes. -/
def disallowedChar (c : Char) : Bool :=
  smartSingle c || smartDouble c || dashChar c || ellipsisChar c || nbspChar c
    || uspaceChar c || zeroWidthChar c || combiningChar c || primeChar c
    || bulletChar c || copyrightChar c || registeredChar c || trademarkChar c

/-- Characters whose presence can break idempotence of the normalizer:
the zero-width characters U+200B-U+200D and the combining marks
U+0300-U+036F, the only characters whose removal or blank substitution
can bring two newlines together after the paragraph-collapse pass has
already run. -/
def okChar (c : Char) : Bool :=
  !((decide (0x200B ≤ c.toNat) && decide (c.toNat ≤ 0x200D))
    || (decide (0x300 ≤ c.toNat) && decide (c.toNat ≤ 0x36F)))

/-- A nonempty run of jsSpace characters followed by a newline begins
here: the pattern that would let `/\n\s*\n/` make a non-trivial match
right after a newline. -/
def nsnBad : List Char → Bool
  | [] => false
  | c :: rest => jsSpace c && reach rest

/-- No newline of the list is followed by a nonempty jsSpace run leading
to another newline: exactly the condition under which the paragraph
collapse pass is the identity. -/
def nsnFree : List Char → Bool
  | [] => true
  | c :: rest => (if c = '\n' then !(nsnBad rest) else true) && nsnFree rest

/-- No tab, and no two adjacent blank characters: the invariant
established by the blank-run collapse pass. -/
def scOK : List Char → Bool
  | [] => true
  | c :: rest => (!(c == '\t')) && !(blank c && headBlank rest) && scOK rest

/-- No blank character adjacent to a newline: the invariant established
by the strip-blanks-around-newlines pass. -/
def snOK : List Char → Bool
  | [] => true
  | c :: rest => !(blank c && headNl rest) && !(c == '\n' && headBlank rest) && snOK rest

/-- Neither end of the list is a jsSpace character: the invariant
established by trimming. -/
def trimOK (l : List Char) : Bool := !headSpace l && !headSpace l.reverse

theorem engineInv_typeNext (s : Engine) (h : EngineInv s) :
    EngineInv ((typeNextCharacter s).1) := by
  unfold typeNextCharacter EngineInv
  split
  · exact h
  · split
    · exact ⟨fun _ => rfl, fun _ => rfl⟩
    · next h1 _ =>
      push_neg at h1
      refine ⟨fun hp => ?_, fun ht => ?_⟩
      · exact absurd hp (by simpa using h1.2)
      · exact absurd ht (by simpa using h1.1)

theorem engineInv_tick (s : Engine) : EngineInv ((tick s).1) :=
  engineInv_typeNext _ ⟨fun _ => rfl, fun _ => rfl⟩

theorem engineInv_pause (s : Engine) : EngineInv ((pauseTyping s).1) :=
  ⟨fun _ => rfl, fun _ => rfl⟩

theorem engineInv_stop (s : Engine) : EngineInv ((stopTyping s).1) :=
  ⟨fun _ => rfl, fun _ => rfl⟩

theorem engineInv_start (text : List Char) (s : Engine) :
    EngineInv ((startRun text s).1) := by
  refine ⟨fun h => ?_, fun h => ?_⟩ <;> simp [startRun] at h

theorem engineInv_resume (s : Engine) (h : EngineInv s) :
    EngineInv ((resumeTyping s).1) := by
  unfold resumeTyping
  split
  · exact engineInv_typeNext _ ⟨fun hp => by simp at hp, fun ht => h.2 (by simpa using ht)⟩
  · exact ⟨fun hp => by simp at hp, fun ht => h.2 (by simpa using ht)⟩

/-- Helper: from a state with no pending tick, no `TickStep` is possible,
so the only reachable state under spontaneous evolution is itself. -/
theorem reaches_eq_of_not_pending (s : Engine) (h : s.pending = false) :
    ∀ t, Reaches s t → t = s := by
  intro t ht
  rcases (Relation.ReflTransGen.cases_head ht) with h1 | ⟨c, hc, _⟩
  · exact h1.symm
  · exact absurd hc.1 (by simp [h])

/-- C1: for a run whose text has length n and any cursor position k with
k < n, issuing pause() while the cursor is at k and later issuing
resume() causes the next executed instruction to be exactly the one at
index k: pause executes nothing and leaves the cursor at k, and the first
event of resume is the insertion of character k, after which the cursor
is k + 1 — never k - 1 or k + 1 first. -/
theorem c1_pause_resume_resumes_at_cursor (s : Engine) (k : Nat)
    (hT : s.isTyping = true) (hk : s.currentPosition = k)
    (hlt : k < s.textToType.length) :
    (pauseTyping s).2 = [] ∧
    (pauseTyping s).1.currentPosition = k ∧
    ((resumeTyping (pauseTyping s).1).2).head? =
      some (Ev.typed k (s.textToType.getD k ' ')) ∧
    (resumeTyping (pauseTyping s).1).1.currentPosition = k + 1 := by
  have hnle : ¬ s.textToType.length ≤ k := Nat.not_le.mpr hlt
  refine ⟨rfl, hk, ?_, ?_⟩ <;>
    simp [pauseTyping, resumeTyping, typeNextCharacter, hT, hk, hlt, hnle]

/-- Witness for C1 at the concrete running state with text "abc" and
cursor 1: resuming after a pause types character index 1 first. -/
theorem c1_pause_resume_resumes_at_cursor_witness :
    ((resumeTyping (pauseTyping (Engine.mk true false 1 ['a', 'b', 'c'] true)).1).2).head? =
      some (Ev.typed 1 ((['a', 'b', 'c'] : List Char).getD 1 ' ')) :=
  (c1_pause_resume_resumes_at_cursor (Engine.mk true false 1 ['a', 'b', 'c'] true) 1
    rfl rfl (by decide)).2.2.1

/-- C5: calculateDelay returns max(50, 60000/(wpm*5)) without natural
variation — in particular 200 at wpm = 60 — and with natural variation
returns max(50, base * j) for a jitter multiplier j in [0.7, 1.3]
determined by the random draw in [0, 1); for every wpm in [10, 200] and
every draw the result is at least 50. -/
theorem c5_calculateDelay_spec :
    (∀ wpm rand : ℚ, calculateDelay wpm false rand = max 50 (60000 / (wpm * 5))) ∧
    (∀ rand : ℚ, calculateDelay 60 false rand = 200) ∧
    (∀ wpm rand : ℚ, 0 ≤ rand → rand < 1 →
      ∃ j : ℚ, 7/10 ≤ j ∧ j ≤ 13/10 ∧
        calculateDelay wpm true rand = max 50 (60000 / (wpm * 5) * j)) ∧
    (∀ (wpm rand : ℚ) (nv : Bool), 10 ≤ wpm → wpm ≤ 200 →
      50 ≤ calculateDelay wpm nv rand) := by
  refine ⟨fun wpm rand => rfl, fun rand => ?_, fun wpm rand h0 h1 => ?_,
    fun wpm rand nv _ _ => ?_⟩
  · show max (50 : ℚ) (60000 / (60 * 5)) = 200
    norm_num
  · exact ⟨1 + (rand - 1/2) * (6/10), by linarith, by linarith, rfl⟩
  · cases nv <;> exact le_max_left _ _

/-- Witness for C5: at wpm 60 and random draw 1/2 the jittered delay
exists with multiplier in [0.7, 1.3], and the delay is at least 50. -/
theorem c5_calculateDelay_spec_witness :
    (0 : ℚ) ≤ 1/2 ∧ (1/2 : ℚ) < 1 ∧
    (∃ j : ℚ, 7/10 ≤ j ∧ j ≤ 13/10 ∧
      calculateDelay 60 true (1/2) = max 50 (60000 / (60 * 5) * j)) ∧
    50 ≤ calculateDelay 60 true (1/2) :=
  ⟨by norm_num, by norm_num,
    c5_calculateDelay_spec.2.2.1 60 (1/2) (by norm_num) (by norm_num),
    c5_calculateDelay_spec.2.2.2 60 (1/2) true (by norm_num) (by norm_num)⟩

/-- C6 counterexample: at the concrete running state (isTyping, not
paused, cursor 0, text "ab", tick pending) resume() is not a no-op,
contrary to the claim: it advances the cursor and executes an
instruction. -/
theorem c6_resume_running_counterexample :
    (Engine.mk true false 0 ['a', 'b'] true).isPaused = false ∧
    (resumeTyping (Engine.mk true false 0 ['a', 'b'] true)).1.currentPosition ≠
      (Engine.mk true false 0 ['a', 'b'] true).currentPosition ∧
    (resumeTyping (Engine.mk true false 0 ['a', 'b'] true)).2 ≠ [] := by
  decide

/-- C6 (amended): pause() and resume() in a non-typing state leave the
cursor, the typing flag and the (absent) scheduled tick unchanged and
report nothing, affecting at most the paused flag; pause() while already
paused is a complete no-op; but resume() issued while Running with the
cursor before the end is NOT ignored: it immediately executes the
instruction at the cursor. -/
theorem c6_invalid_commands (s : Engine) (hInv : EngineInv s) :
    (s.isTyping = false →
      pauseTyping s = ({ s with isPaused := true }, []) ∧
      resumeTyping s = ({ s with isPaused := false }, [])) ∧
    (s.isTyping = true → s.isPaused = true → pauseTyping s = (s, [])) ∧
    (s.isTyping = true → s.isPaused = false →
      s.currentPosition < s.textToType.length →
      (resumeTyping s).2.head? =
        some (Ev.typed s.currentPosition (s.textToType.getD s.currentPosition ' '))) := by
  obtain ⟨t, p, pos, txt, pend⟩ := s
  obtain ⟨h1, h2⟩ := hInv
  refine ⟨fun ht => ?_, fun ht hp => ?_, fun ht hp hlt => ?_⟩
  · subst ht
    have hpe : pend = false := h2 rfl
    subst hpe
    exact ⟨rfl, by simp [resumeTyping]⟩
  · subst ht; subst hp
    have hpe : pend = false := h1 rfl
    subst hpe
    rfl
  · subst ht; subst hp
    have hnle : ¬ txt.length ≤ pos := Nat.not_le.mpr hlt
    simp [resumeTyping, typeNextCharacter, hlt, hnle]

/-- Witness for C6 (amended) at a concrete idle state: resume() only
clears the paused flag and reports nothing. -/
theorem c6_invalid_commands_witness :
    resumeTyping (Engine.mk false false 3 ['a'] false) =
      (Engine.mk false false 3 ['a'] false, []) :=
  ((c6_invalid_commands (Engine.mk false false 3 ['a'] false)
    ⟨fun h => by simp at h, fun _ => rfl⟩).1 rfl).2

/-- C7: in single-method mode (settings.singleMethod !== false) the raw
input-event dispatch mechanism is never attempted, whatever the host
surface does — including when mechanisms 1 and 2 fail and mechanism 3 is
attempted — and an attempted mechanism 4 implies multi-method mode. -/
theorem c7_single_method_no_input_events (isEnter : Bool) (env : InsertEnv) :
    Mech.inputEvents ∉ typeCharacter true isEnter env ∧
    ∀ single : Bool, Mech.inputEvents ∈ typeCharacter single isEnter env →
      single = false := by
  have key : ∀ single : Bool,
      Mech.inputEvents ∈ typeCharacter single isEnter env → single = false := by
    intro single hmem
    cases single
    · rfl
    · exfalso
      simp only [typeCharacter] at hmem
      split_ifs at hmem <;> simp_all
  exact ⟨fun hmem => Bool.noConfusion (key true hmem), key⟩

/-- C9: the editor locator always produces a surface handle — at worst
the document body — so the acquisition-error branch of startTyping is
unreachable and typingError is never reported. -/
theorem c9_editor_always_found (dom : Dom) :
    (findGoogleDocsEditor dom).isSome = true ∧ startAcquireEvents dom = [] := by
  have h : (findGoogleDocsEditor dom).isSome = true := by
    unfold findGoogleDocsEditor
    split
    · rfl
    · split
      · rfl
      · split
        · rfl
        · rfl
  refine ⟨h, ?_⟩
  cases hfe : findGoogleDocsEditor dom with
  | none => rw [hfe] at h; simp at h
  | some e => simp [startAcquireEvents, hfe]

/-- C10: if pause() arrives after the final character executed (cursor =
text length) but before the completion tick fires, a subsequent resume()
does nothing: no event is reported, the typing flag stays set, no tick is
scheduled, and no spontaneous evolution is possible afterwards, so the
run never completes. -/
theorem c10_pause_at_end_stalls (s : Engine)
    (hT : s.isTyping = true) (hpos : s.currentPosition = s.textToType.length) :
    (pauseTyping s).2 = [] ∧
    (resumeTyping (pauseTyping s).1).2 = [] ∧
    (resumeTyping (pauseTyping s).1).1.isTyping = true ∧
    (resumeTyping (pauseTyping s).1).1.currentPosition = s.textToType.length ∧
    (resumeTyping (pauseTyping s).1).1.pending = false ∧
    ∀ t, Reaches (resumeTyping (pauseTyping s).1).1 t →
      t = (resumeTyping (pauseTyping s).1).1 := by
  have hr : resumeTyping (pauseTyping s).1 =
      ({ s with isPaused := false, pending := false }, []) := by
    unfold pauseTyping resumeTyping
    split
    · next hcond => exact absurd hcond.2 (by simp [hpos])
    · rfl
  rw [hr]
  exact ⟨rfl, rfl, hT, hpos, rfl, reaches_eq_of_not_pending _ rfl⟩

/-- Witness for C10 at the concrete state with text "ab" and cursor 2:
after pause and resume the engine is stuck with the typing flag set. -/
theorem c10_pause_at_end_stalls_witness :
    (resumeTyping (pauseTyping (Engine.mk true false 2 ['a', 'b'] true)).1).2 = [] ∧
    (resumeTyping (pauseTyping (Engine.mk true false 2 ['a', 'b'] true)).1).1.isTyping = true :=
  ⟨(c10_pause_at_end_stalls (Engine.mk true false 2 ['a', 'b'] true) rfl rfl).2.1,
   (c10_pause_at_end_stalls (Engine.mk true false 2 ['a', 'b'] true) rfl rfl).2.2.1⟩

theorem mapSet_keys_nodup (m : List (Nat × FmtEv)) (k : Nat) (v : FmtEv)
    (h : (m.map Prod.fst).Nodup) : ((mapSet m k v).map Prod.fst).Nodup := by
  unfold mapSet
  split
  · have heq : (m.map fun p => if p.1 = k then (k, v) else p).map Prod.fst =
        m.map Prod.fst := by
      rw [List.map_map]
      apply List.map_congr_left
      intro p _
      by_cases hp : p.1 = k
      · simp [hp]
      · simp [hp]
    rw [heq]
    exact h
  · next hna =>
    rw [List.map_append]
    simp only [List.map_cons, List.map_nil]
    rw [List.nodup_append]
    refine ⟨h, List.nodup_singleton _, ?_⟩
    intro a ha hb
    simp only [List.mem_singleton] at hb
    subst hb
    apply hna
    simp only [List.any_eq_true]
    obtain ⟨p, hp, hpk⟩ := List.mem_map.mp ha
    exact ⟨p, hp, by simp [hpk]⟩

theorem boldGo_keys_nodup (fuel : Nat) :
    ∀ (l : List Char) (idx off : Nat) (m : List (Nat × FmtEv)),
      (m.map Prod.fst).Nodup → (((boldGo fuel l idx off m).2).map Prod.fst).Nodup := by
  induction fuel with
  | zero => intro l idx off m h; exact h
  | succ f ih =>
    intro l idx off m h
    cases l with
    | nil => exact h
    | cons c rest =>
      simp only [boldGo]
      cases hm : (markerMatch ['*', '*'] (c :: rest)).orElse
          (fun _ => markerMatch ['_', '_'] (c :: rest)) with
      | some pr =>
        obtain ⟨content, after⟩ := pr
        exact ih _ _ _ _ (mapSet_keys_nodup _ _ _ (mapSet_keys_nodup _ _ _ h))
      | none => exact ih _ _ _ _ h

theorem italicGo_keys_nodup (fuel : Nat) :
    ∀ (prev : Option Char) (l : List Char) (idx off : Nat) (m : List (Nat × FmtEv)),
      (m.map Prod.fst).Nodup → (((italicGo fuel prev l idx off m).2).map Prod.fst).Nodup := by
  induction fuel with
  | zero => intro prev l idx off m h; exact h
  | succ f ih =>
    intro prev l idx off m h
    cases l with
    | nil => exact h
    | cons c rest =>
      simp only [italicGo]
      cases hm : italicTry prev c rest with
      | some pr =>
        obtain ⟨content, tail⟩ := pr
        exact ih _ _ _ _ _ (mapSet_keys_nodup _ _ _ (mapSet_keys_nodup _ _ _ h))
      | none => exact ih _ _ _ _ _ h

theorem underlineGo_keys_nodup (fuel : Nat) :
    ∀ (l : List Char) (idx off : Nat) (m : List (Nat × FmtEv)),
      (m.map Prod.fst).Nodup → (((underlineGo fuel l idx off m).2).map Prod.fst).Nodup := by
  induction fuel with
  | zero => intro l idx off m h; exact h
  | succ f ih =>
    intro l idx off m h
    cases l with
    | nil => exact h
    | cons c rest =>
      simp only [underlineGo]
      cases hm : markerMatch ['~', '~'] (c :: rest) with
      | some pr =>
        obtain ⟨content, after⟩ := pr
        exact ih _ _ _ _ (mapSet_keys_nodup _ _ _ (mapSet_keys_nodup _ _ _ h))
      | none => exact ih _ _ _ _ h

/-- C2 counterexample: for the input "**ab**_c_" the final formatting
collection contains a Bold Start (at offset 0) but no Bold End at any
offset: the italic Start recorded at offset 2 overwrote the Bold End
because the map is keyed by offset alone.  So there is a Start with no
later End of the same kind, and the Start/End pair is not retained,
contrary to the claim. -/
theorem c2_counterexample :
    (∃ p ∈ (parseFormattingMarkers "**ab**_c_".toList).2,
      p.2 = FmtEv.mk FKind.bold FEdge.startEdge) ∧
    ¬ ∃ q ∈ (parseFormattingMarkers "**ab**_c_".toList).2,
      q.2 = FmtEv.mk FKind.bold FEdge.endEdge := by
  decide

/-- C2 (amended): for every input text, the formatting collection contains
at most one event per offset — the map is keyed by offset alone and a
later write (bold resolved before italic before underline, earlier
matches before later ones) overwrites the event recorded at an equal
offset — hence the recorded entries are pairwise distinct and in
particular no two share the same (offset, kind, edge) triple; when an
overwrite occurs, the overwritten Start or End of a pair is NOT retained
in the result. -/
theorem c2_offsets_nodup (text : List Char) :
    (((parseFormattingMarkers text).2).map Prod.fst).Nodup ∧
    ((parseFormattingMarkers text).2).Nodup := by
  have h : (((parseFormattingMarkers text).2).map Prod.fst).Nodup := by
    unfold parseFormattingMarkers
    exact underlineGo_keys_nodup _ _ _ _ _
      (italicGo_keys_nodup _ _ _ _ _ _
        (boldGo_keys_nodup _ _ _ _ _ (by simp)))
  exact ⟨h, h.of_map⟩

/-- C8: parsing "Hi **bold** there" yields the stripped text
"Hi bold there" together with exactly one Bold Start event at offset 3
and exactly one Bold End event at offset 7 (the map is exactly those two
entries). -/
theorem c8_concrete_bold_scenario :
    (parseFormattingMarkers "Hi **bold** there".toList).1 = "Hi bold there".toList ∧
    (parseFormattingMarkers "Hi **bold** there".toList).2 =
      [(3, FmtEv.mk FKind.bold FEdge.startEdge), (7, FmtEv.mk FKind.bold FEdge.endEdge)] := by
  decide

theorem blank_jsSpace {c : Char} (h : blank c = true) : jsSpace c = true := by
  simp only [blank, Bool.or_eq_true, beq_iff_eq] at h
  rcases h with h | h <;> subst h <;> decide

theorem blank_ne_nl {c : Char} (h : blank c = true) : c ≠ '\n' := by
  simp only [blank, Bool.or_eq_true, beq_iff_eq] at h
  rcases h with h | h <;> subst h <;> decide

theorem not_blank_of_ne {c : Char} (h : c ≠ ' ') (h2 : c ≠ '\t') : blank c = false := by
  simp [blank, h, h2]

theorem jsSpace_nl : jsSpace '\n' = true := by decide

theorem crlf_mem : ∀ (l : List Char) (c : Char), c ∈ crlf l → c ∈ l ∨ c = '\n'
  | [], c, h => by simp [crlf] at h
  | [d], c, h => by simp only [crlf] at h; exact Or.inl h
  | a :: d :: rest, c, h => by
    simp only [crlf] at h
    split at h
    · rcases List.mem_cons.mp h with h1 | h1
      · exact Or.inr h1
      · rcases crlf_mem rest c h1 with h2 | h2
        · exact Or.inl (by simp [h2])
        · exact Or.inr h2
    · rcases List.mem_cons.mp h with h1 | h1
      · exact Or.inl (by simp [h1])
      · rcases crlf_mem (d :: rest) c h1 with h2 | h2
        · exact Or.inl (by simp [List.mem_cons.mp h2])
        · exact Or.inr h2

theorem crlf_id : ∀ (l : List Char), (∀ c ∈ l, c ≠ '\r') → crlf l = l
  | [], _ => rfl
  | [_], _ => rfl
  | a :: d :: rest, h => by
    have ha : a ≠ '\r' := h a (by simp)
    simp only [crlf]
    rw [if_neg (fun hc => ha hc.1)]
    rw [crlf_id (d :: rest) (fun x hx => h x (by simp [List.mem_cons.mp hx]))]

theorem crmap_mem (l : List Char) (c : Char) (h : c ∈ crmap l) : c ∈ l ∨ c = '\n' := by
  simp only [crmap, List.mem_map] at h
  obtain ⟨a, ha, hc⟩ := h
  by_cases hr : a = '\r'
  · rw [if_pos hr] at hc; exact Or.inr hc.symm
  · rw [if_neg hr] at hc; exact Or.inl (hc ▸ ha)

theorem crmap_no_cr (l : List Char) (c : Char) (h : c ∈ crmap l) : c ≠ '\r' := by
  simp only [crmap, List.mem_map] at h
  obtain ⟨a, ha, hc⟩ := h
  by_cases hr : a = '\r'
  · rw [if_pos hr] at hc; subst hc; decide
  · rw [if_neg hr] at hc; subst hc; exact hr

theorem crmap_id (l : List Char) (h : ∀ c ∈ l, c ≠ '\r') : crmap l = l := by
  unfold crmap
  have heq : ∀ a ∈ l, (if a = '\r' then '\n' else a) = id a := by
    intro a ha
    simp [h a ha]
  rw [List.map_congr_left heq, List.map_id]

theorem rp_nil (t : Char → Bool) (r : List Char) : rePlace t r [] = [] := rfl

theorem rp_cons (t : Char → Bool) (r : List Char) (a : Char) (rest : List Char) :
    rePlace t r (a :: rest) = (if t a = true then r else [a]) ++ rePlace t r rest := by
  simp [rePlace]

theorem rp_mem (t : Char → Bool) (r l : List Char) (c : Char) (h : c ∈ rePlace t r l) :
    (c ∈ l ∧ t c = false) ∨ c ∈ r := by
  simp only [rePlace, List.mem_flatMap] at h
  obtain ⟨a, ha, hc⟩ := h
  by_cases hta : t a = true
  · rw [if_pos hta] at hc; exact Or.inr hc
  · rw [if_neg hta] at hc
    simp only [List.mem_singleton] at hc
    subst hc
    exact Or.inl ⟨ha, by simpa using hta⟩

theorem rp_id (t : Char → Bool) (r : List Char) :
    ∀ (l : List Char), (∀ c ∈ l, t c = false) → rePlace t r l = l := by
  intro l
  induction l with
  | nil => intro _; rfl
  | cons a rest ih =>
    intro h
    rw [rp_cons, if_neg (by simp [h a (by simp)])]
    rw [ih (fun c hc => h c (by simp [hc]))]
    rfl

theorem rp_absent (t : Char → Bool) (r l : List Char)
    (hr : ∀ d ∈ r, t d = false) (c : Char) (h : c ∈ rePlace t r l) : t c = false := by
  rcases rp_mem t r l c h with ⟨_, h2⟩ | h2
  · exact h2
  · exact hr c h2

theorem reach_cons (c : Char) (rest : List Char) :
    reach (c :: rest) = (c == '\n' || (jsSpace c && reach rest)) := rfl

theorem reach_false_elim {c : Char} {rest : List Char} (h : reach (c :: rest) = false) :
    c ≠ '\n' ∧ (jsSpace c = true → reach rest = false) := by
  rw [reach_cons, Bool.or_eq_false_iff] at h
  obtain ⟨h1, h2⟩ := h
  refine ⟨by simpa using h1, fun hs => ?_⟩
  rcases Bool.and_eq_false_iff.mp h2 with h3 | h3
  · rw [hs] at h3; cases h3
  · exact h3

theorem reach_nl (rest : List Char) : reach ('\n' :: rest) = true := by
  rw [reach_cons]; simp

theorem reach_true_elim {c : Char} {rest : List Char} (h : reach (c :: rest) = true) :
    c = '\n' ∨ (jsSpace c = true ∧ reach rest = true) := by
  rw [reach_cons, Bool.or_eq_true] at h
  rcases h with h | h
  · exact Or.inl (by simpa using h)
  · exact Or.inr (by simpa using h)

theorem nlSplit_isSome (l : List Char) : (nlSplit l).isSome = reach l := by
  induction l with
  | nil => rfl
  | cons c rest ih =>
    simp only [nlSplit, reach_cons]
    by_cases hc : c = '\n'
    · subst hc
      rw [if_pos rfl]
      cases hns : nlSplit rest <;> simp
    · rw [if_neg hc]
      by_cases hs : jsSpace c = true
      · rw [if_pos hs, ih]
        simp [hs, hc]
      · rw [if_neg hs]
        simp only [Bool.eq_false_iff, ne_eq] at hs
        simp [hs, hc, Bool.eq_false_iff]

theorem nlSplit_none_iff (l : List Char) : nlSplit l = none ↔ reach l = false := by
  rw [← nlSplit_isSome]
  cases nlSplit l <;> simp

theorem nlSplit_length : ∀ (l r : List Char), nlSplit l = some r → r.length < l.length
  | [], r, h => by simp [nlSplit] at h
  | c :: rest, r, h => by
    simp only [nlSplit] at h
    by_cases hc : c = '\n'
    · rw [if_pos hc] at h
      cases hns : nlSplit rest with
      | some r2 =>
        rw [hns] at h
        cases h
        exact Nat.lt_trans (nlSplit_length rest r hns) (by simp)
      | none =>
        rw [hns] at h
        cases h
        simp
    · rw [if_neg hc] at h
      by_cases hs : jsSpace c = true
      · rw [if_pos hs] at h
        exact Nat.lt_trans (nlSplit_length rest r h) (by simp)
      · rw [if_neg hs] at h; cases h

theorem nlSplit_mem : ∀ (l r : List Char), nlSplit l = some r → ∀ c ∈ r, c ∈ l
  | [], r, h => by simp [nlSplit] at h
  | c :: rest, r, h => by
    simp only [nlSplit] at h
    by_cases hc : c = '\n'
    · rw [if_pos hc] at h
      cases hns : nlSplit rest with
      | some r2 =>
        rw [hns] at h
        cases h
        exact fun x hx => by simp [nlSplit_mem rest r hns x hx]
      | none =>
        rw [hns] at h
        cases h
        exact fun x hx => by simp [hx]
    · rw [if_neg hc] at h
      by_cases hs : jsSpace c = true
      · rw [if_pos hs] at h
        exact fun x hx => by simp [nlSplit_mem rest r h x hx]
      · rw [if_neg hs] at h; cases h

theorem nlSplit_not_reach : ∀ (l r : List Char), nlSplit l = some r → reach r = false
  | [], r, h => by simp [nlSplit] at h
  | c :: rest, r, h => by
    simp only [nlSplit] at h
    by_cases hc : c = '\n'
    · rw [if_pos hc] at h
      cases hns : nlSplit rest with
      | some r2 =>
        rw [hns] at h
        cases h
        exact nlSplit_not_reach rest r hns
      | none =>
        rw [hns] at h
        cases h
        exact (nlSplit_none_iff rest).mp hns
    · rw [if_neg hc] at h
      by_cases hs : jsSpace c = true
      · rw [if_pos hs] at h
        exact nlSplit_not_reach rest r h
      · rw [if_neg hs] at h; cases h

theorem reach_append_no_nl : ∀ (r z : List Char), (∀ d ∈ r, d ≠ '\n') →
    reach (r ++ z) = true → reach z = true
  | [], z, _, h => h
  | d :: r2, z, hnl, h => by
    rcases reach_true_elim h with h1 | ⟨_, h2⟩
    · exact absurd h1 (hnl d (by simp))
    · exact reach_append_no_nl r2 z (fun x hx => hnl x (by simp [hx])) h2

theorem nsnBad_cons (c : Char) (rest : List Char) :
    nsnBad (c :: rest) = (jsSpace c && reach rest) := rfl

theorem nsnBad_reach : ∀ (l : List Char), nsnBad l = true → reach l = true
  | c :: rest, h => by
    rw [nsnBad_cons, Bool.and_eq_true] at h
    rw [reach_cons]
    simp [h.1, h.2]

theorem nsnBad_false_of_reach_false (l : List Char) (h : reach l = false) :
    nsnBad l = false := by
  cases hb : nsnBad l
  · rfl
  · rw [nsnBad_reach l hb] at h; cases h

theorem nsnFree_nil : nsnFree [] = true := rfl

theorem nsnFree_cons (c : Char) (rest : List Char) :
    nsnFree (c :: rest) = ((if c = '\n' then !(nsnBad rest) else true) && nsnFree rest) := rfl

theorem nsnFree_tail {c : Char} {rest : List Char} (h : nsnFree (c :: rest) = true) :
    nsnFree rest = true := by
  rw [nsnFree_cons, Bool.and_eq_true] at h
  exact h.2

theorem nsnFree_nl_elim {rest : List Char} (h : nsnFree ('\n' :: rest) = true) :
    nsnBad rest = false := by
  rw [nsnFree_cons, if_pos rfl, Bool.and_eq_true] at h
  simpa using h.1

theorem nsnFree_cons_ne {c : Char} (rest : List Char) (hc : c ≠ '\n') :
    nsnFree (c :: rest) = nsnFree rest := by
  rw [nsnFree_cons, if_neg hc, Bool.true_and]

theorem nsnFree_cons_nl (rest : List Char) :
    nsnFree ('\n' :: rest) = (!(nsnBad rest) && nsnFree rest) := by
  rw [nsnFree_cons, if_pos rfl]

theorem nsnFree_dropWhile (p : Char → Bool) :
    ∀ (l : List Char), nsnFree l = true → nsnFree (l.dropWhile p) = true
  | [], h => h
  | c :: rest, h => by
    rw [List.dropWhile_cons]
    split
    · exact nsnFree_dropWhile p rest (nsnFree_tail h)
    · exact h

theorem nsnFree_append_no_nl : ∀ (r z : List Char), (∀ d ∈ r, d ≠ '\n') →
    nsnFree (r ++ z) = nsnFree z
  | [], _, _ => rfl
  | d :: r2, z, hnl => by
    rw [List.cons_append, nsnFree_cons_ne _ (hnl d (by simp))]
    exact nsnFree_append_no_nl r2 z (fun x hx => hnl x (by simp [hx]))

theorem paraGo_nil (f : Nat) : paraGo f [] = [] := by cases f <;> rfl

theorem para_mem : ∀ (f : Nat) (l : List Char) (c : Char),
    c ∈ paraGo f l → c ∈ l ∨ c = '\n'
  | 0, _, _, h => Or.inl h
  | _ + 1, [], c, h => by simp [paraGo] at h
  | f + 1, a :: rest, c, h => by
    simp only [paraGo] at h
    by_cases ha : a = '\n'
    · rw [if_pos ha] at h
      cases hns : nlSplit rest with
      | some r =>
        rw [hns] at h
        rcases List.mem_cons.mp h with h1 | h1
        · exact Or.inr h1
        rcases List.mem_cons.mp h1 with h2 | h2
        · exact Or.inr h2
        rcases para_mem f r c h2 with h3 | h3
        · exact Or.inl (by simp [nlSplit_mem rest r hns c h3])
        · exact Or.inr h3
      | none =>
        rw [hns] at h
        rcases List.mem_cons.mp h with h1 | h1
        · exact Or.inr h1
        rcases para_mem f rest c h1 with h3 | h3
        · exact Or.inl (by simp [h3])
        · exact Or.inr h3
    · rw [if_neg ha] at h
      rcases List.mem_cons.mp h with h1 | h1
      · exact Or.inl (by simp [h1])
      rcases para_mem f rest c h1 with h3 | h3
      · exact Or.inl (by simp [h3])
      · exact Or.inr h3

theorem para_reach_false : ∀ (f : Nat) (l : List Char), reach l = false →
    reach (paraGo f l) = false
  | 0, _, h => h
  | _ + 1, [], h => h
  | f + 1, a :: rest, h => by
    obtain ⟨ha, hs⟩ := reach_false_elim h
    simp only [paraGo]
    rw [if_neg ha, reach_cons]
    have h1 : (a == '\n') = false := by simpa using ha
    cases hsp : jsSpace a with
    | false => simp [h1, hsp]
    | true => simp [h1, hsp, para_reach_false f rest (hs hsp)]

theorem para_id : ∀ (f : Nat) (l : List Char), l.length ≤ f → nsnFree l = true →
    paraGo f l = l
  | _, [], _, _ => paraGo_nil _
  | 0, _ :: _, hlen, _ => by simp at hlen
  | f + 1, a :: rest, hlen, hfree => by
    have hrest : rest.length ≤ f := by simp at hlen; omega
    simp only [paraGo]
    by_cases ha : a = '\n'
    · subst ha
      have hbad : nsnBad rest = false := nsnFree_nl_elim hfree
      rw [if_pos rfl]
      cases hns : nlSplit rest with
      | some r =>
        cases rest with
        | nil => simp [nlSplit] at hns
        | cons d r2 =>
          have hd : d = '\n' := by
            by_contra hd
            have hrek : reach (d :: r2) = true := by
              rw [← nlSplit_isSome, hns]; rfl
            rcases reach_true_elim hrek with h1 | ⟨h2, h3⟩
            · exact hd h1
            · rw [nsnBad_cons, h2, h3] at hbad; cases hbad
          subst hd
          have hr2 : reach r2 = false := by
            rw [nsnBad_cons, jsSpace_nl, Bool.true_and] at hbad
            exact hbad
          have hns2 : nlSplit ('\n' :: r2) = some r2 := by
            have hstep : nlSplit ('\n' :: r2) =
                match nlSplit r2 with
                | some r3 => some r3
                | none => some r2 := by simp [nlSplit]
            rw [hstep, (nlSplit_none_iff r2).mpr hr2]
          rw [hns2] at hns
          cases hns
          have hlen2 : r.length ≤ f := by simp at hrest; omega
          show '\n' :: '\n' :: paraGo f r = '\n' :: '\n' :: r
          rw [para_id f r hlen2 (nsnFree_tail (nsnFree_tail hfree))]
      | none =>
        rw [para_id f rest hrest (nsnFree_tail hfree)]
    · rw [if_neg ha]
      rw [para_id f rest hrest (nsnFree_tail hfree)]

theorem para_establish : ∀ (f : Nat) (l : List Char), l.length ≤ f →
    nsnFree (paraGo f l) = true
  | f, [], _ => by rw [paraGo_nil]; rfl
  | 0, _ :: _, hlen => by simp at hlen
  | f + 1, a :: rest, hlen => by
    have hrest : rest.length ≤ f := by simp at hlen; omega
    simp only [paraGo]
    by_cases ha : a = '\n'
    · rw [if_pos ha]
      cases hns : nlSplit rest with
      | some r =>
        have hr : r.length ≤ f := by
          have := nlSplit_length rest r hns
          omega
        have hreach2 : reach (paraGo f r) = false :=
          para_reach_false f r (nlSplit_not_reach rest r hns)
        rw [nsnFree_cons_nl, nsnFree_cons_nl, para_establish f r hr]
        have hb1 : nsnBad ('\n' :: paraGo f r) = false := by
          rw [nsnBad_cons]
          simp [hreach2]
        rw [hb1, nsnBad_false_of_reach_false _ hreach2]
        rfl
      | none =>
        have hreach : reach rest = false := (nlSplit_none_iff rest).mp hns
        rw [nsnFree_cons_nl, para_establish f rest hrest,
          nsnBad_false_of_reach_false _ (para_reach_false f rest hreach)]
        rfl
    · rw [if_neg ha, nsnFree_cons_ne _ ha]
      exact para_establish f rest hrest

theorem ne_nl_of_not_space {d : Char} (h : jsSpace d = false) : d ≠ '\n' := by
  intro hd
  rw [hd, jsSpace_nl] at h
  cases h

theorem reach_append_not_space (r z : List Char) (hne : r ≠ [])
    (hns : ∀ d ∈ r, jsSpace d = false) : reach (r ++ z) = false := by
  cases r with
  | nil => exact absurd rfl hne
  | cons d r2 =>
    rw [List.cons_append, reach_cons]
    have h1 : (d == '\n') = false := by
      simpa using ne_nl_of_not_space (hns d (by simp))
    rw [h1, hns d (by simp)]
    rfl

theorem nsnBad_append_not_space (r z : List Char) (hne : r ≠ [])
    (hns : ∀ d ∈ r, jsSpace d = false) : nsnBad (r ++ z) = false := by
  cases r with
  | nil => exact absurd rfl hne
  | cons d r2 =>
    rw [List.cons_append, nsnBad_cons, hns d (by simp)]
    rfl

theorem nsnBad_append_cases (r z : List Char) (hnl : ∀ d ∈ r, d ≠ '\n')
    (h : nsnBad (r ++ z) = true) : (r = [] ∧ nsnBad z = true) ∨ reach z = true := by
  cases r with
  | nil => exact Or.inl ⟨rfl, by simpa using h⟩
  | cons d r2 =>
    rw [List.cons_append, nsnBad_cons] at h
    obtain ⟨_, hrr⟩ : jsSpace d = true ∧ reach (r2 ++ z) = true := by simpa using h
    exact Or.inr (reach_append_no_nl r2 z (fun x hx => hnl x (by simp [hx])) hrr)

theorem rp_reach (t : Char → Bool) (r : List Char)
    (hnl : ∀ d ∈ r, d ≠ '\n') :
    ∀ l : List Char,
      (∀ c ∈ l, t c = true → jsSpace c = false → r ≠ [] ∧ ∀ d ∈ r, jsSpace d = false) →
      reach (rePlace t r l) = true → reach l = true
  | [], _, h => h
  | c :: rest, hmix, h => by
    rw [rp_cons] at h
    by_cases htc : t c = true
    · rw [if_pos htc] at h
      by_cases hsc : jsSpace c = true
      · have h2 : reach (rePlace t r rest) = true := reach_append_no_nl r _ hnl h
        have h3 : reach rest = true :=
          rp_reach t r hnl rest (fun x hx => hmix x (by simp [hx])) h2
        rw [reach_cons]
        simp [hsc, h3]
      · obtain ⟨hne, hns⟩ := hmix c (by simp) htc (by simpa using hsc)
        rw [reach_append_not_space r _ hne hns] at h
        cases h
    · rw [if_neg htc, List.singleton_append] at h
      rcases reach_true_elim h with h1 | ⟨hsp, hre⟩
      · rw [reach_cons]
        simp [h1]
      · have h3 : reach rest = true :=
          rp_reach t r hnl rest (fun x hx => hmix x (by simp [hx])) hre
        rw [reach_cons]
        simp [hsp, h3]

theorem rp_nsnBad (t : Char → Bool) (r : List Char)
    (hnl : ∀ d ∈ r, d ≠ '\n') :
    ∀ l : List Char,
      (∀ c ∈ l, t c = true → jsSpace c = false → r ≠ [] ∧ ∀ d ∈ r, jsSpace d = false) →
      nsnBad (rePlace t r l) = true → nsnBad l = true
  | [], _, h => h
  | c :: rest, hmix, h => by
    rw [rp_cons] at h
    by_cases htc : t c = true
    · rw [if_pos htc] at h
      have hsc : jsSpace c = true := by
        by_contra hsc0
        obtain ⟨hne, hns⟩ := hmix c (by simp) htc (by simpa using hsc0)
        rw [nsnBad_append_not_space r _ hne hns] at h
        cases h
      rcases nsnBad_append_cases r _ hnl h with ⟨_, hz⟩ | hre
      · have h2 := rp_nsnBad t r hnl rest (fun x hx => hmix x (by simp [hx])) hz
        rw [nsnBad_cons, hsc]
        simp [nsnBad_reach rest h2]
      · have h3 := rp_reach t r hnl rest (fun x hx => hmix x (by simp [hx])) hre
        rw [nsnBad_cons, hsc]
        simp [h3]
    · rw [if_neg htc, List.singleton_append, nsnBad_cons] at h
      obtain ⟨hsp, hre⟩ :
          jsSpace c = true ∧ reach (rePlace t r rest) = true := by simpa using h
      have h3 : reach rest = true :=
        rp_reach t r hnl rest (fun x hx => hmix x (by simp [hx])) hre
      rw [nsnBad_cons, hsp]
      simp [h3]

theorem rp_nsnFree (t : Char → Bool) (r : List Char)
    (hnl : ∀ d ∈ r, d ≠ '\n') (hcn : t '\n' = false) :
    ∀ l : List Char,
      (∀ c ∈ l, t c = true → jsSpace c = false → r ≠ [] ∧ ∀ d ∈ r, jsSpace d = false) →
      nsnFree l = true → nsnFree (rePlace t r l) = true
  | [], _, _ => rfl
  | c :: rest, hmix, hfree => by
    rw [rp_cons]
    by_cases hc : c = '\n'
    · subst hc
      rw [if_neg (by simp [hcn]), List.singleton_append, nsnFree_cons_nl]
      have h1 : nsnFree (rePlace t r rest) = true :=
        rp_nsnFree t r hnl hcn rest (fun x hx => hmix x (by simp [hx])) (nsnFree_tail hfree)
      have hbad : nsnBad rest = false := nsnFree_nl_elim hfree
      have h2 : nsnBad (rePlace t r rest) = false := by
        cases hb2 : nsnBad (rePlace t r rest)
        · rfl
        · exact absurd
            (rp_nsnBad t r hnl rest (fun x hx => hmix x (by simp [hx])) hb2)
            (by simp [hbad])
      rw [h1, h2]
      rfl
    · by_cases htc : t c = true
      · rw [if_pos htc, nsnFree_append_no_nl r _ hnl]
        exact rp_nsnFree t r hnl hcn rest (fun x hx => hmix x (by simp [hx]))
          (nsnFree_tail hfree)
      · rw [if_neg htc, List.singleton_append, nsnFree_cons_ne _ hc]
        exact rp_nsnFree t r hnl hcn rest (fun x hx => hmix x (by simp [hx]))
          (nsnFree_tail hfree)

theorem nbsp_space {c : Char} (h : nbspChar c = true) : jsSpace c = true := by
  have h2 : c.toNat = 0xA0 := by simpa [nbspChar] using h
  simp only [jsSpace, Bool.or_eq_true, Bool.and_eq_true, decide_eq_true_eq]
  left
  rw [h2]
  decide

theorem okChar_false_of_zw {c : Char} (h1 : 0x200B ≤ c.toNat) (h2 : c.toNat ≤ 0x200D) :
    okChar c = false := by
  simp only [okChar, Bool.not_eq_false', Bool.or_eq_true, Bool.and_eq_true,
    decide_eq_true_eq]
  exact Or.inl ⟨h1, h2⟩

theorem uspace_not_space_okChar {c : Char} (h : uspaceChar c = true)
    (hs : jsSpace c = false) : okChar c = false := by
  have h1 : ((0x2000 ≤ c.toNat ∧ c.toNat ≤ 0x200B) ∨ c.toNat = 0x2028) ∨ c.toNat = 0x2029 := by
    simpa [uspaceChar, Bool.or_eq_true, Bool.and_eq_true] using h
  rcases h1 with (h1 | h1) | h1
  · have h200B : c.toNat = 0x200B := by
      by_contra hne
      have hsp : jsSpace c = true := by
        simp only [jsSpace, Bool.or_eq_true, Bool.and_eq_true, decide_eq_true_eq]
        right
        exact ⟨h1.1, by omega⟩
      rw [hsp] at hs
      cases hs
    exact okChar_false_of_zw (by omega) (by omega)
  · have hsp : jsSpace c = true := by
      simp only [jsSpace, Bool.or_eq_true, Bool.and_eq_true, decide_eq_true_eq]
      left
      rw [h1]
      decide
    rw [hsp] at hs
    cases hs
  · have hsp : jsSpace c = true := by
      simp only [jsSpace, Bool.or_eq_true, Bool.and_eq_true, decide_eq_true_eq]
      left
      rw [h1]
      decide
    rw [hsp] at hs
    cases hs

theorem zw_not_space_okChar {c : Char} (h : zeroWidthChar c = true)
    (hs : jsSpace c = false) : okChar c = false := by
  have h1 : (0x200B ≤ c.toNat ∧ c.toNat ≤ 0x200D) ∨ c.toNat = 0xFEFF := by
    simpa [zeroWidthChar, Bool.or_eq_true, Bool.and_eq_true] using h
  rcases h1 with h1 | h1
  · exact okChar_false_of_zw h1.1 h1.2
  · have hsp : jsSpace c = true := by
      simp only [jsSpace, Bool.or_eq_true, Bool.and_eq_true, decide_eq_true_eq]
      left
      rw [h1]
      decide
    rw [hsp] at hs
    cases hs

theorem combining_okChar {c : Char} (h : combiningChar c = true) : okChar c = false := by
  have h1 : 0x300 ≤ c.toNat ∧ c.toNat ≤ 0x36F := by
    simpa [combiningChar, Bool.and_eq_true] using h
  simp only [okChar, Bool.not_eq_false', Bool.or_eq_true, Bool.and_eq_true,
    decide_eq_true_eq]
  exact Or.inr ⟨h1.1, h1.2⟩

theorem scGo_nil (f : Nat) : scGo f [] = [] := by cases f <;> rfl

theorem dropWhile_blank_mem (l : List Char) (c : Char) (h : c ∈ l.dropWhile blank) :
    c ∈ l :=
  (List.dropWhile_sublist blank).subset h

theorem scOK_cons (c : Char) (rest : List Char) :
    scOK (c :: rest) = ((!(c == '\t')) && !(blank c && headBlank rest) && scOK rest) := rfl

theorem scOK_tail {c : Char} {rest : List Char} (h : scOK (c :: rest) = true) :
    scOK rest = true := by
  simp only [scOK_cons, Bool.and_eq_true] at h
  exact h.2

theorem scOK_dropWhile (p : Char → Bool) :
    ∀ l : List Char, scOK l = true → scOK (l.dropWhile p) = true
  | [], h => h
  | c :: rest, h => by
    rw [List.dropWhile_cons]
    split
    · exact scOK_dropWhile p rest (scOK_tail h)
    · exact h

theorem snOK_cons (c : Char) (rest : List Char) :
    snOK (c :: rest) =
      ((!(blank c && headNl rest)) && !(c == '\n' && headBlank rest) && snOK rest) := rfl

theorem snOK_tail {c : Char} {rest : List Char} (h : snOK (c :: rest) = true) :
    snOK rest = true := by
  simp only [snOK_cons, Bool.and_eq_true] at h
  exact h.2

theorem snOK_dropWhile (p : Char → Bool) :
    ∀ l : List Char, snOK l = true → snOK (l.dropWhile p) = true
  | [], h => h
  | c :: rest, h => by
    rw [List.dropWhile_cons]
    split
    · exact snOK_dropWhile p rest (snOK_tail h)
    · exact h

theorem sc_mem : ∀ (f : Nat) (l : List Char) (c : Char), c ∈ scGo f l → c ∈ l ∨ c = ' '
  | 0, _, _, h => Or.inl h
  | _ + 1, [], _, h => by cases h
  | f + 1, a :: rest, c, h => by
    simp only [scGo] at h
    by_cases hb : blank a = true
    · rw [if_pos hb] at h
      rcases List.mem_cons.mp h with h1 | h1
      · exact Or.inr h1
      rcases sc_mem f _ c h1 with h2 | h2
      · exact Or.inl (by simp [dropWhile_blank_mem rest c h2])
      · exact Or.inr h2
    · rw [if_neg hb] at h
      rcases List.mem_cons.mp h with h1 | h1
      · exact Or.inl (by simp [h1])
      rcases sc_mem f rest c h1 with h2 | h2
      · exact Or.inl (by simp [h2])
      · exact Or.inr h2

theorem reach_dropWhile_blank :
    ∀ l : List Char, reach (l.dropWhile blank) = true → reach l = true
  | [], h => h
  | c :: rest, h => by
    rw [List.dropWhile_cons] at h
    split at h
    · next hb =>
      have h2 := reach_dropWhile_blank rest h
      rw [reach_cons]
      simp [blank_jsSpace hb, h2]
    · exact h

theorem nsnBad_dropWhile_blank :
    ∀ l : List Char, nsnBad (l.dropWhile blank) = true → nsnBad l = true
  | [], h => h
  | c :: rest, h => by
    rw [List.dropWhile_cons] at h
    split at h
    · next hb =>
      have h2 := nsnBad_dropWhile_blank rest h
      rw [nsnBad_cons]
      simp [blank_jsSpace hb, nsnBad_reach rest h2]
    · exact h

theorem sc_reach : ∀ (f : Nat) (l : List Char), reach (scGo f l) = true → reach l = true
  | 0, _, h => h
  | _ + 1, [], h => h
  | f + 1, a :: rest, h => by
    simp only [scGo] at h
    by_cases hb : blank a = true
    · rw [if_pos hb] at h
      rcases reach_true_elim h with h1 | ⟨_, h2⟩
      · exact absurd h1 (by decide)
      · have h4 := reach_dropWhile_blank rest (sc_reach f _ h2)
        rw [reach_cons]
        simp [blank_jsSpace hb, h4]
    · rw [if_neg hb] at h
      rcases reach_true_elim h with h1 | ⟨hsp, h2⟩
      · rw [reach_cons]
        simp [h1]
      · rw [reach_cons]
        simp [hsp, sc_reach f rest h2]

theorem sc_nsnBad : ∀ (f : Nat) (l : List Char), nsnBad (scGo f l) = true → nsnBad l = true
  | 0, _, h => h
  | _ + 1, [], h => h
  | f + 1, a :: rest, h => by
    simp only [scGo] at h
    by_cases hb : blank a = true
    · rw [if_pos hb, nsnBad_cons] at h
      obtain ⟨-, h2⟩ : jsSpace ' ' = true ∧ reach (scGo f (rest.dropWhile blank)) = true := by
        simpa using h
      have h4 := reach_dropWhile_blank rest (sc_reach f _ h2)
      rw [nsnBad_cons]
      simp [blank_jsSpace hb, h4]
    · rw [if_neg hb, nsnBad_cons] at h
      obtain ⟨hsp, h2⟩ : jsSpace a = true ∧ reach (scGo f rest) = true := by simpa using h
      rw [nsnBad_cons]
      simp [hsp, sc_reach f rest h2]

theorem sc_nsnFree : ∀ (f : Nat) (l : List Char), nsnFree l = true → nsnFree (scGo f l) = true
  | 0, _, h => h
  | _ + 1, [], h => h
  | f + 1, a :: rest, hfree => by
    simp only [scGo]
    by_cases hb : blank a = true
    · rw [if_pos hb]
      have hfd : nsnFree (rest.dropWhile blank) = true :=
        nsnFree_dropWhile blank rest (nsnFree_tail hfree)
      rw [nsnFree_cons_ne _ (by decide : (' ' : Char) ≠ '\n')]
      exact sc_nsnFree f _ hfd
    · rw [if_neg hb]
      by_cases ha : a = '\n'
      · subst ha
        rw [nsnFree_cons_nl]
        have h1 := sc_nsnFree f rest (nsnFree_tail hfree)
        have hbad := nsnFree_nl_elim hfree
        have h2 : nsnBad (scGo f rest) = false := by
          cases hb2 : nsnBad (scGo f rest)
          · rfl
          · exact absurd (sc_nsnBad f rest hb2) (by simp [hbad])
        rw [h1, h2]
        rfl
      · rw [nsnFree_cons_ne _ ha]
        exact sc_nsnFree f rest (nsnFree_tail hfree)

theorem headBlank_dropWhile_blank (l : List Char) : headBlank (l.dropWhile blank) = false := by
  induction l with
  | nil => rfl
  | cons c rest ih =>
    rw [List.dropWhile_cons]
    split
    · exact ih
    · next hb => simpa [headBlank] using hb

theorem sc_headBlank : ∀ (f : Nat) (z : List Char),
    headBlank z = false → headBlank (scGo f z) = false
  | 0, _, h => h
  | _ + 1, [], h => h
  | f + 1, d :: z2, h => by
    have hb : blank d = false := by simpa [headBlank] using h
    simp only [scGo]
    rw [if_neg (by simp [hb])]
    simpa [headBlank] using hb

theorem blank_false_elim {a : Char} (h : blank a = false) : a ≠ ' ' ∧ a ≠ '\t' := by
  simp only [blank, Bool.or_eq_false_iff] at h
  exact ⟨by simpa using h.1, by simpa using h.2⟩

theorem sc_scOK : ∀ (f : Nat) (l : List Char), l.length ≤ f → scOK (scGo f l) = true
  | f, [], _ => by rw [scGo_nil]; rfl
  | 0, _ :: _, hlen => by simp at hlen
  | f + 1, a :: rest, hlen => by
    have hrest : rest.length ≤ f := by simp at hlen; omega
    simp only [scGo]
    by_cases hb : blank a = true
    · rw [if_pos hb]
      have hz : (rest.dropWhile blank).length ≤ f :=
        le_trans (List.dropWhile_sublist blank).length_le hrest
      have h1 := sc_scOK f _ hz
      have h2 : headBlank (scGo f (rest.dropWhile blank)) = false :=
        sc_headBlank f _ (headBlank_dropWhile_blank rest)
      rw [scOK_cons, h1, h2]
      simp
    · rw [if_neg hb, scOK_cons, sc_scOK f rest hrest]
      have hb2 : blank a = false := by simpa using hb
      obtain ⟨-, ht⟩ := blank_false_elim hb2
      simp [hb2, ht]

theorem sc_id : ∀ (f : Nat) (l : List Char), l.length ≤ f → scOK l = true → scGo f l = l
  | _, [], _, _ => scGo_nil _
  | 0, _ :: _, hlen, _ => by simp at hlen
  | f + 1, a :: rest, hlen, hok => by
    have hrest : rest.length ≤ f := by simp at hlen; omega
    rw [scOK_cons] at hok
    obtain ⟨ht, hnb, hrec⟩ : (!(a == '\t')) = true ∧ (!(blank a && headBlank rest)) = true ∧
        scOK rest = true := by simpa [Bool.and_assoc] using hok
    simp only [scGo]
    by_cases hb : blank a = true
    · rw [if_pos hb]
      have ha : a = ' ' := by
        rcases (by simpa [blank] using hb : a = ' ' ∨ a = '\t') with h | h
        · exact h
        · rw [h] at ht; simp at ht
      have hhb : headBlank rest = false := by
        rw [hb] at hnb
        simpa using hnb
      have hdw : rest.dropWhile blank = rest := by
        cases rest with
        | nil => rfl
        | cons d r2 =>
          rw [List.dropWhile_cons, if_neg]
          simp only [headBlank] at hhb
          simp [hhb]
      rw [hdw, ha, sc_id f rest hrest hrec]
    · rw [if_neg hb, sc_id f rest hrest hrec]

theorem snGo_nil (f : Nat) : snGo f [] = [] := by cases f <;> rfl

theorem headNl_elim {l : List Char} (h : headNl l = true) :
    ∃ r, l = '\n' :: r := by
  cases l with
  | nil => cases h
  | cons d r => exact ⟨r, by simpa [headNl] using h⟩

theorem reach_of_headNl_dropWhile_blank :
    ∀ l : List Char, headNl (l.dropWhile blank) = true → reach l = true
  | [], h => by cases h
  | c :: rest, h => by
    rw [List.dropWhile_cons] at h
    split at h
    · next hb =>
      have h2 := reach_of_headNl_dropWhile_blank rest h
      rw [reach_cons]
      simp [blank_jsSpace hb, h2]
    · next hb =>
      have hc : c = '\n' := by simpa [headNl] using h
      rw [hc, reach_cons]
      simp

theorem sn_mem : ∀ (f : Nat) (l : List Char) (c : Char), c ∈ snGo f l → c ∈ l ∨ c = '\n'
  | 0, _, _, h => Or.inl h
  | _ + 1, [], _, h => by cases h
  | f + 1, a :: rest, c, h => by
    simp only [snGo] at h
    by_cases ha : a = '\n'
    · rw [if_pos ha] at h
      rcases List.mem_cons.mp h with h1 | h1
      · exact Or.inr h1
      rcases sn_mem f _ c h1 with h2 | h2
      · exact Or.inl (by simp [dropWhile_blank_mem rest c h2])
      · exact Or.inr h2
    · rw [if_neg ha] at h
      by_cases hcond : blank a = true ∧ headNl (rest.dropWhile blank) = true
      · rw [if_pos hcond] at h
        rcases List.mem_cons.mp h with h1 | h1
        · exact Or.inr h1
        rcases sn_mem f _ c h1 with h2 | h2
        · refine Or.inl ?_
          have h3 : c ∈ (rest.dropWhile blank).drop 1 :=
            (List.dropWhile_sublist blank).subset h2
          have h4 : c ∈ rest.dropWhile blank :=
            (List.drop_sublist 1 _).subset h3
          exact List.mem_cons.mpr (Or.inr (dropWhile_blank_mem rest c h4))
        · exact Or.inr h2
      · rw [if_neg hcond] at h
        rcases List.mem_cons.mp h with h1 | h1
        · exact Or.inl (by simp [h1])
        rcases sn_mem f rest c h1 with h2 | h2
        · exact Or.inl (by simp [h2])
        · exact Or.inr h2

theorem sn_reach : ∀ (f : Nat) (l : List Char), reach (snGo f l) = true → reach l = true
  | 0, _, h => h
  | _ + 1, [], h => h
  | f + 1, a :: rest, h => by
    simp only [snGo] at h
    by_cases ha : a = '\n'
    · subst ha
      exact reach_nl rest
    · rw [if_neg ha] at h
      by_cases hcond : blank a = true ∧ headNl (rest.dropWhile blank) = true
      · rw [reach_cons]
        have h2 := reach_of_headNl_dropWhile_blank rest hcond.2
        simp [blank_jsSpace hcond.1, h2]
      · rw [if_neg hcond] at h
        rcases reach_true_elim h with h1 | ⟨hsp, h2⟩
        · rw [reach_cons]
          simp [h1]
        · rw [reach_cons]
          simp [hsp, sn_reach f rest h2]

theorem sn_nsnBad : ∀ (f : Nat) (l : List Char), nsnBad (snGo f l) = true → nsnBad l = true
  | 0, _, h => h
  | _ + 1, [], h => h
  | f + 1, a :: rest, h => by
    simp only [snGo] at h
    by_cases ha : a = '\n'
    · rw [if_pos ha, nsnBad_cons] at h
      obtain ⟨hsp, h2⟩ : jsSpace '\n' = true ∧
          reach (snGo f (rest.dropWhile blank)) = true := by simpa using h
      have h4 := reach_dropWhile_blank rest (sn_reach f _ h2)
      subst ha
      rw [nsnBad_cons, hsp]
      simp [h4]
    · rw [if_neg ha] at h
      by_cases hcond : blank a = true ∧ headNl (rest.dropWhile blank) = true
      · have h2 := reach_of_headNl_dropWhile_blank rest hcond.2
        rw [nsnBad_cons, blank_jsSpace hcond.1]
        simp [h2]
      · rw [if_neg hcond, nsnBad_cons] at h
        obtain ⟨hsp, h2⟩ : jsSpace a = true ∧ reach (snGo f rest) = true := by simpa using h
        rw [nsnBad_cons, hsp]
        simp [sn_reach f rest h2]

theorem sn_nsnFree : ∀ (f : Nat) (l : List Char), nsnFree l = true → nsnFree (snGo f l) = true
  | 0, _, h => h
  | _ + 1, [], h => h
  | f + 1, a :: rest, hfree => by
    simp only [snGo]
    by_cases ha : a = '\n'
    · rw [if_pos ha]
      subst ha
      have hbad : nsnBad rest = false := nsnFree_nl_elim hfree
      have hfd : nsnFree (rest.dropWhile blank) = true :=
        nsnFree_dropWhile blank rest (nsnFree_tail hfree)
      rw [nsnFree_cons_nl, sn_nsnFree f _ hfd]
      have h2 : nsnBad (snGo f (rest.dropWhile blank)) = false := by
        cases hb2 : nsnBad (snGo f (rest.dropWhile blank))
        · rfl
        · exact absurd (nsnBad_dropWhile_blank rest (sn_nsnBad f _ hb2)) (by simp [hbad])
      rw [h2]
      rfl
    · rw [if_neg ha]
      by_cases hcond : blank a = true ∧ headNl (rest.dropWhile blank) = true
      · rw [if_pos hcond]
        obtain ⟨r, hr⟩ := headNl_elim hcond.2
        have hfr : nsnFree ('\n' :: r) = true := by
          rw [← hr]
          exact nsnFree_dropWhile blank rest (nsnFree_tail hfree)
        have hbadr : nsnBad r = false := nsnFree_nl_elim hfr
        have hfw : nsnFree (((rest.dropWhile blank).drop 1).dropWhile blank) = true := by
          rw [hr]
          exact nsnFree_dropWhile blank r (nsnFree_tail hfr)
        rw [nsnFree_cons_nl, sn_nsnFree f _ hfw]
        have h2 : nsnBad (snGo f (((rest.dropWhile blank).drop 1).dropWhile blank)) = false := by
          cases hb2 : nsnBad (snGo f (((rest.dropWhile blank).drop 1).dropWhile blank))
          · rfl
          · have h3 := sn_nsnBad f _ hb2
            rw [hr] at h3
            exact absurd (nsnBad_dropWhile_blank r (by simpa using h3)) (by simp [hbadr])
        rw [h2]
        rfl
      · rw [if_neg hcond, nsnFree_cons_ne _ ha]
        exact sn_nsnFree f rest (nsnFree_tail hfree)

theorem sn_headBlank : ∀ (f : Nat) (z : List Char),
    headBlank z = false → headBlank (snGo f z) = false
  | 0, _, h => h
  | _ + 1, [], h => h
  | f + 1, d :: z2, h => by
    have hb : blank d = false := by simpa [headBlank] using h
    simp only [snGo]
    by_cases hd : d = '\n'
    · rw [if_pos hd]
      simp [headBlank, blank]
    · rw [if_neg hd, if_neg (by simp [hb])]
      simpa [headBlank] using hb

theorem sn_headNl : ∀ (f : Nat) (z : List Char),
    headNl (z.dropWhile blank) = false → headNl (snGo f z) = false
  | 0, [], _ => rfl
  | 0, d :: z2, h => by
    rw [List.dropWhile_cons] at h
    show headNl (d :: z2) = false
    split at h
    · next hb =>
      simp only [headNl]
      simpa using blank_ne_nl hb
    · exact h
  | _ + 1, [], _ => rfl
  | f + 1, d :: z2, h => by
    rw [List.dropWhile_cons] at h
    simp only [snGo]
    split at h
    · next hb =>
      rw [if_neg (blank_ne_nl hb), if_neg (by simp [h])]
      simp only [headNl]
      simpa using blank_ne_nl hb
    · next hb =>
      have hd : d ≠ '\n' := by simpa [headNl] using h
      rw [if_neg hd]
      split
      · next hcc => exact absurd hcc.1 (by simpa using hb)
      · simp only [headNl]
        simpa using hd

theorem sn_scOK : ∀ (f : Nat) (l : List Char), scOK l = true → scOK (snGo f l) = true
  | 0, _, h => h
  | _ + 1, [], h => h
  | f + 1, a :: rest, hok => by
    have hrec : scOK rest = true := scOK_tail hok
    simp only [snGo]
    by_cases ha : a = '\n'
    · rw [if_pos ha]
      rw [scOK_cons, sn_scOK f _ (scOK_dropWhile blank rest hrec),
        sn_headBlank f _ (headBlank_dropWhile_blank rest)]
      simp [blank]
    · rw [if_neg ha]
      by_cases hcond : blank a = true ∧ headNl (rest.dropWhile blank) = true
      · rw [if_pos hcond]
        obtain ⟨r, hr⟩ := headNl_elim hcond.2
        have hscr : scOK (((rest.dropWhile blank).drop 1).dropWhile blank) = true := by
          rw [hr]
          exact scOK_dropWhile blank r (scOK_tail (hr ▸ scOK_dropWhile blank rest hrec))
        rw [scOK_cons, sn_scOK f _ hscr]
        have hhb : headBlank (snGo f (((rest.dropWhile blank).drop 1).dropWhile blank)) = false := by
          refine sn_headBlank f _ ?_
          rw [hr]
          exact headBlank_dropWhile_blank r
        rw [hhb]
        simp [blank]
      · rw [if_neg hcond, scOK_cons, sn_scOK f rest hrec]
        simp only [scOK_cons, Bool.and_eq_true] at hok
        obtain ⟨⟨ht, hpair⟩, -⟩ := hok
        by_cases hb : blank a = true
        · have hhbr : headBlank rest = false := by
            rcases (by simpa using hpair : blank a = false ∨ headBlank rest = false) with h | h
            · rw [hb] at h; cases h
            · exact h
          simp [sn_headBlank f rest hhbr, hb, ht]
        · have hb2 : blank a = false := by simpa using hb
          simp [hb2, ht]

theorem dropWhile_blank_eq_self {l : List Char} (h : headBlank l = false) :
    l.dropWhile blank = l := by
  cases l with
  | nil => rfl
  | cons d r =>
    rw [List.dropWhile_cons, if_neg]
    simp only [headBlank] at h
    simp [h]

theorem dropWhile_space_eq_self {l : List Char} (h : headSpace l = false) :
    l.dropWhile jsSpace = l := by
  cases l with
  | nil => rfl
  | cons d r =>
    rw [List.dropWhile_cons, if_neg]
    simp only [headSpace] at h
    simp [h]

theorem headSpace_dropWhile (l : List Char) : headSpace (l.dropWhile jsSpace) = false := by
  induction l with
  | nil => rfl
  | cons c rest ih =>
    rw [List.dropWhile_cons]
    split
    · exact ih
    · next hb => simpa [headSpace] using hb

theorem sn_snOK : ∀ (f : Nat) (l : List Char), l.length ≤ f → snOK (snGo f l) = true
  | f, [], _ => by rw [snGo_nil]; rfl
  | 0, _ :: _, hlen => by simp at hlen
  | f + 1, a :: rest, hlen => by
    have hrest : rest.length ≤ f := by simp at hlen; omega
    simp only [snGo]
    by_cases ha : a = '\n'
    · rw [if_pos ha]
      have hz : (rest.dropWhile blank).length ≤ f :=
        le_trans (List.dropWhile_sublist blank).length_le hrest
      rw [snOK_cons, sn_snOK f _ hz,
        sn_headBlank f _ (headBlank_dropWhile_blank rest)]
      simp [blank]
    · rw [if_neg ha]
      by_cases hcond : blank a = true ∧ headNl (rest.dropWhile blank) = true
      · rw [if_pos hcond]
        have hw : (((rest.dropWhile blank).drop 1).dropWhile blank).length ≤ f := by
          have h1 : (((rest.dropWhile blank).drop 1).dropWhile blank).length ≤
              ((rest.dropWhile blank).drop 1).length :=
            (List.dropWhile_sublist blank).length_le
          have h2 : ((rest.dropWhile blank).drop 1).length ≤ (rest.dropWhile blank).length :=
            (List.drop_sublist 1 _).length_le
          have h3 : (rest.dropWhile blank).length ≤ rest.length :=
            (List.dropWhile_sublist blank).length_le
          omega
        rw [snOK_cons, sn_snOK f _ hw,
          sn_headBlank f _ (headBlank_dropWhile_blank ((rest.dropWhile blank).drop 1))]
        simp [blank]
      · rw [if_neg hcond, snOK_cons, sn_snOK f rest hrest]
        by_cases hb : blank a = true
        · have hnl2 : headNl (rest.dropWhile blank) = false := by
            by_contra hx
            exact hcond ⟨hb, by simpa using hx⟩
          rw [sn_headNl f rest hnl2]
          simp [ha]
        · have hb2 : blank a = false := by simpa using hb
          simp [hb2, ha]

theorem sn_id : ∀ (f : Nat) (l : List Char), l.length ≤ f → snOK l = true →
    scOK l = true → snGo f l = l
  | _, [], _, _, _ => snGo_nil _
  | 0, _ :: _, hlen, _, _ => by simp at hlen
  | f + 1, a :: rest, hlen, hsn, hsc => by
    have hrest : rest.length ≤ f := by simp at hlen; omega
    obtain ⟨⟨hpn, hnb⟩, hsrec⟩ :
        ((!(blank a && headNl rest)) = true ∧ (!(a == '\n' && headBlank rest)) = true) ∧
          snOK rest = true := by simpa [snOK_cons, Bool.and_eq_true] using hsn
    obtain ⟨⟨-, hpair⟩, hscrec⟩ :
        ((!(a == '\t')) = true ∧ (!(blank a && headBlank rest)) = true) ∧
          scOK rest = true := by simpa [scOK_cons, Bool.and_eq_true] using hsc
    simp only [snGo]
    by_cases ha : a = '\n'
    · rw [if_pos ha]
      have hhb : headBlank rest = false := by
        rw [ha] at hnb
        simpa using hnb
      rw [dropWhile_blank_eq_self hhb, sn_id f rest hrest hsrec hscrec, ha]
    · rw [if_neg ha]
      have hcond : ¬(blank a = true ∧ headNl (rest.dropWhile blank) = true) := by
        rintro ⟨hb, hnl2⟩
        have hhb : headBlank rest = false := by
          rw [hb] at hpair
          simpa using hpair
        rw [dropWhile_blank_eq_self hhb] at hnl2
        rw [hb] at hpn
        simp only [Bool.true_and, Bool.not_eq_true'] at hpn
        rw [hpn] at hnl2
        cases hnl2
      rw [if_neg hcond, sn_id f rest hrest hsrec hscrec]

theorem trim_mem (l : List Char) (c : Char) (h : c ∈ trimEnds l) : c ∈ l := by
  unfold trimEnds at h
  rw [List.mem_reverse] at h
  have h2 := (List.dropWhile_sublist jsSpace).subset h
  rw [List.mem_reverse] at h2
  exact (List.dropWhile_sublist jsSpace).subset h2

theorem reach_append_mono : ∀ (a b : List Char), reach a = true → reach (a ++ b) = true
  | [], _, h => by cases h
  | c :: a2, b, h => by
    rw [List.cons_append, reach_cons]
    rcases reach_true_elim h with h1 | ⟨hsp, h2⟩
    · simp [h1]
    · simp [hsp, reach_append_mono a2 b h2]

theorem nsnBad_append_mono : ∀ (a b : List Char), nsnBad a = true → nsnBad (a ++ b) = true
  | [], _, h => by cases h
  | c :: a2, b, h => by
    obtain ⟨hsp, h2⟩ : jsSpace c = true ∧ reach a2 = true := by
      simpa [nsnBad_cons] using h
    rw [List.cons_append, nsnBad_cons, hsp]
    simp [reach_append_mono a2 b h2]

theorem nsnFree_append_left : ∀ (a b : List Char), nsnFree (a ++ b) = true →
    nsnFree a = true
  | [], _, _ => rfl
  | c :: a2, b, h => by
    rw [List.cons_append] at h
    by_cases hc : c = '\n'
    · subst hc
      rw [nsnFree_cons_nl] at h ⊢
      obtain ⟨h1, h2⟩ : nsnBad (a2 ++ b) = false ∧ nsnFree (a2 ++ b) = true := by
        simpa using h
      have h3 : nsnBad a2 = false := by
        cases hb : nsnBad a2
        · rfl
        · exact absurd (nsnBad_append_mono a2 b hb) (by simp [h1])
      rw [h3, nsnFree_append_left a2 b h2]
      rfl
    · rw [nsnFree_cons_ne _ hc] at h ⊢
      exact nsnFree_append_left a2 b h

theorem headBlank_append (a b : List Char) (h : headBlank (a ++ b) = false) (hne : a ≠ []) :
    headBlank a = false := by
  cases a with
  | nil => exact absurd rfl hne
  | cons d a2 => simpa [headBlank] using h

theorem headNl_append (a b : List Char) (h : headNl (a ++ b) = false) (hne : a ≠ []) :
    headNl a = false := by
  cases a with
  | nil => exact absurd rfl hne
  | cons d a2 => simpa [headNl] using h

theorem scOK_append_left : ∀ (a b : List Char), scOK (a ++ b) = true → scOK a = true
  | [], _, _ => rfl
  | c :: a2, b, h => by
    obtain ⟨⟨h1, h2⟩, h3⟩ :
        ((!(c == '\t')) = true ∧ (!(blank c && headBlank (a2 ++ b))) = true) ∧
          scOK (a2 ++ b) = true := by
      simpa [List.cons_append, scOK_cons, Bool.and_eq_true] using h
    rw [scOK_cons, scOK_append_left a2 b h3, h1]
    cases a2 with
    | nil => simp [headBlank]
    | cons d a3 =>
      have heq : headBlank (d :: a3) = headBlank ((d :: a3) ++ b) := by simp [headBlank]
      rw [heq]
      simpa using h2

theorem snOK_append_left : ∀ (a b : List Char), snOK (a ++ b) = true → snOK a = true
  | [], _, _ => rfl
  | c :: a2, b, h => by
    obtain ⟨⟨h1, h2⟩, h3⟩ :
        ((!(blank c && headNl (a2 ++ b))) = true ∧
          (!(c == '\n' && headBlank (a2 ++ b))) = true) ∧
          snOK (a2 ++ b) = true := by
      simpa [List.cons_append, snOK_cons, Bool.and_eq_true] using h
    rw [snOK_cons, snOK_append_left a2 b h3]
    cases a2 with
    | nil => simp [headNl, headBlank]
    | cons d a3 =>
      have e1 : headNl (d :: a3) = headNl ((d :: a3) ++ b) := by simp [headNl]
      have e2 : headBlank (d :: a3) = headBlank ((d :: a3) ++ b) := by simp [headBlank]
      rw [e1, e2, h1, h2]
      rfl

theorem trim_decomp (l : List Char) :
    l.dropWhile jsSpace = trimEnds l ++ ((l.dropWhile jsSpace).reverse.takeWhile jsSpace).reverse := by
  unfold trimEnds
  have h := List.takeWhile_append_dropWhile jsSpace (l.dropWhile jsSpace).reverse
  calc l.dropWhile jsSpace
      = (l.dropWhile jsSpace).reverse.reverse := by rw [List.reverse_reverse]
    _ = (((l.dropWhile jsSpace).reverse.takeWhile jsSpace) ++
          ((l.dropWhile jsSpace).reverse.dropWhile jsSpace)).reverse := by rw [h]
    _ = ((l.dropWhile jsSpace).reverse.dropWhile jsSpace).reverse ++
          ((l.dropWhile jsSpace).reverse.takeWhile jsSpace).reverse := by
        rw [List.reverse_append]

theorem nsnFree_trim (l : List Char) (h : nsnFree l = true) :
    nsnFree (trimEnds l) = true := by
  have h2 := nsnFree_dropWhile jsSpace l h
  rw [trim_decomp l] at h2
  exact nsnFree_append_left _ _ h2

theorem scOK_trim (l : List Char) (h : scOK l = true) : scOK (trimEnds l) = true := by
  have h2 := scOK_dropWhile jsSpace l h
  rw [trim_decomp l] at h2
  exact scOK_append_left _ _ h2

theorem snOK_trim (l : List Char) (h : snOK l = true) : snOK (trimEnds l) = true := by
  have h2 := snOK_dropWhile jsSpace l h
  rw [trim_decomp l] at h2
  exact snOK_append_left _ _ h2

theorem headSpace_append_left (a b : List Char) (h : headSpace (a ++ b) = false) :
    headSpace a = false := by
  cases a with
  | nil => rfl
  | cons d a2 => simpa [headSpace] using h

theorem trimOK_trim (l : List Char) : trimOK (trimEnds l) = true := by
  have h1 : headSpace (trimEnds l) = false := by
    have h0 := headSpace_dropWhile l
    rw [trim_decomp l] at h0
    exact headSpace_append_left _ _ h0
  have h2 : headSpace (trimEnds l).reverse = false := by
    unfold trimEnds
    rw [List.reverse_reverse]
    exact headSpace_dropWhile _
  simp [trimOK, h1, h2]

theorem trim_id (l : List Char) (h : trimOK l = true) : trimEnds l = l := by
  obtain ⟨h1, h2⟩ : headSpace l = false ∧ headSpace l.reverse = false := by
    simpa [trimOK] using h
  unfold trimEnds
  rw [dropWhile_space_eq_self h1, dropWhile_space_eq_self h2, List.reverse_reverse]

theorem rp_pred (t : Char → Bool) (r l : List Char) (P : Char → Prop)
    (hl : ∀ c ∈ l, P c) (hr : ∀ d ∈ r, P d) : ∀ c ∈ rePlace t r l, P c := by
  intro c hc
  rcases rp_mem t r l c hc with ⟨h1, -⟩ | h1
  · exact hl c h1
  · exact hr c h1

theorem repl_not_disallowed {c : Char} {r : List Char}
    (hall : r.all (fun d => !disallowedChar d) = true) (h : c ∈ r) :
    disallowedChar c = false := by
  have h2 := List.all_eq_true.mp hall c h
  simpa using h2

theorem disallowed_parts {c : Char} (h : disallowedChar c = false) :
    smartSingle c = false ∧ smartDouble c = false ∧ dashChar c = false ∧
    ellipsisChar c = false ∧ nbspChar c = false ∧ uspaceChar c = false ∧
    zeroWidthChar c = false ∧ combiningChar c = false ∧ primeChar c = false ∧
    bulletChar c = false ∧ copyrightChar c = false ∧ registeredChar c = false ∧
    trademarkChar c = false := by
  simp only [disallowedChar, Bool.or_eq_false_iff] at h
  tauto

theorem subst_disallowed (l : List Char) :
    ∀ c ∈ substitutions l, disallowedChar c = false := by
  intro c hc
  unfold substitutions at hc
  rcases rp_mem _ _ _ c hc with ⟨hc, h13⟩ | hr
  on_goal 2 => exact repl_not_disallowed (by decide) hr
  rcases rp_mem _ _ _ c hc with ⟨hc, h12⟩ | hr
  on_goal 2 => exact repl_not_disallowed (by decide) hr
  rcases rp_mem _ _ _ c hc with ⟨hc, h11⟩ | hr
  on_goal 2 => exact repl_not_disallowed (by decide) hr
  rcases rp_mem _ _ _ c hc with ⟨hc, h10⟩ | hr
  on_goal 2 => exact repl_not_disallowed (by decide) hr
  rcases rp_mem _ _ _ c hc with ⟨hc, h9⟩ | hr
  on_goal 2 => exact repl_not_disallowed (by decide) hr
  rcases rp_mem _ _ _ c hc with ⟨hc, h8⟩ | hr
  on_goal 2 => exact absurd hr (List.not_mem_nil c)
  rcases rp_mem _ _ _ c hc with ⟨hc, h7⟩ | hr
  on_goal 2 => exact absurd hr (List.not_mem_nil c)
  rcases rp_mem _ _ _ c hc with ⟨hc, h6⟩ | hr
  on_goal 2 => exact repl_not_disallowed (by decide) hr
  rcases rp_mem _ _ _ c hc with ⟨hc, h5⟩ | hr
  on_goal 2 => exact repl_not_disallowed (by decide) hr
  rcases rp_mem _ _ _ c hc with ⟨hc, h4⟩ | hr
  on_goal 2 => exact repl_not_disallowed (by decide) hr
  rcases rp_mem _ _ _ c hc with ⟨hc, h3⟩ | hr
  on_goal 2 => exact repl_not_disallowed (by decide) hr
  rcases rp_mem _ _ _ c hc with ⟨hc, h2⟩ | hr
  on_goal 2 => exact repl_not_disallowed (by decide) hr
  rcases rp_mem _ _ _ c hc with ⟨hc, h1⟩ | hr
  on_goal 2 => exact repl_not_disallowed (by decide) hr
  simp [disallowedChar, h1, h2, h3, h4, h5, h6, h7, h8, h9, h10, h11, h12, h13]

theorem subst_ne_cr (l : List Char) (h : ∀ c ∈ l, c ≠ '\r') :
    ∀ c ∈ substitutions l, c ≠ '\r' := by
  unfold substitutions
  exact rp_pred _ _ _ _ (rp_pred _ _ _ _ (rp_pred _ _ _ _ (rp_pred _ _ _ _
    (rp_pred _ _ _ _ (rp_pred _ _ _ _ (rp_pred _ _ _ _ (rp_pred _ _ _ _
      (rp_pred _ _ _ _ (rp_pred _ _ _ _ (rp_pred _ _ _ _ (rp_pred _ _ _ _
        (rp_pred _ _ _ _ h (by decide)) (by decide)) (by decide)) (by decide))
          (by decide)) (by decide)) (by decide)) (by decide)) (by decide))
            (by decide)) (by decide)) (by decide)) (by decide)

theorem subst_id (l : List Char) (h : ∀ c ∈ l, disallowedChar c = false) :
    substitutions l = l := by
  unfold substitutions
  rw [rp_id smartSingle _ l (fun c hc => (disallowed_parts (h c hc)).1),
    rp_id smartDouble _ l (fun c hc => (disallowed_parts (h c hc)).2.1),
    rp_id dashChar _ l (fun c hc => (disallowed_parts (h c hc)).2.2.1),
    rp_id ellipsisChar _ l (fun c hc => (disallowed_parts (h c hc)).2.2.2.1),
    rp_id nbspChar _ l (fun c hc => (disallowed_parts (h c hc)).2.2.2.2.1),
    rp_id uspaceChar _ l (fun c hc => (disallowed_parts (h c hc)).2.2.2.2.2.1),
    rp_id zeroWidthChar _ l (fun c hc => (disallowed_parts (h c hc)).2.2.2.2.2.2.1),
    rp_id combiningChar _ l (fun c hc => (disallowed_parts (h c hc)).2.2.2.2.2.2.2.1),
    rp_id primeChar _ l (fun c hc => (disallowed_parts (h c hc)).2.2.2.2.2.2.2.2.1),
    rp_id bulletChar _ l (fun c hc => (disallowed_parts (h c hc)).2.2.2.2.2.2.2.2.2.1),
    rp_id copyrightChar _ l (fun c hc => (disallowed_parts (h c hc)).2.2.2.2.2.2.2.2.2.2.1),
    rp_id registeredChar _ l (fun c hc => (disallowed_parts (h c hc)).2.2.2.2.2.2.2.2.2.2.2.1),
    rp_id trademarkChar _ l (fun c hc => (disallowed_parts (h c hc)).2.2.2.2.2.2.2.2.2.2.2.2)]

theorem subst_nsnFree (l : List Char) (hok : ∀ c ∈ l, okChar c = true)
    (hfree : nsnFree l = true) : nsnFree (substitutions l) = true := by
  unfold substitutions
  have h1 : nsnFree (rePlace smartSingle ['\''] l) = true :=
    rp_nsnFree _ _ (by decide) (by decide) l
      (fun c _ _ _ => ⟨by decide, by decide⟩) hfree
  have hok1 : ∀ c ∈ rePlace smartSingle ['\''] l, okChar c = true :=
    rp_pred _ _ _ _ hok (by decide)
  have h2 : nsnFree (rePlace smartDouble ['"'] (rePlace smartSingle ['\''] l)) = true :=
    rp_nsnFree _ _ (by decide) (by decide) _
      (fun c _ _ _ => ⟨by decide, by decide⟩) h1
  have hok2 : ∀ c ∈ rePlace smartDouble ['"'] (rePlace smartSingle ['\''] l),
      okChar c = true :=
    rp_pred _ _ _ _ hok1 (by decide)
  have h3 : nsnFree (rePlace dashChar ['-']
      (rePlace smartDouble ['"'] (rePlace smartSingle ['\''] l))) = true :=
    rp_nsnFree _ _ (by decide) (by decide) _
      (fun c _ _ _ => ⟨by decide, by decide⟩) h2
  have hok3 : ∀ c ∈ rePlace dashChar ['-']
      (rePlace smartDouble ['"'] (rePlace smartSingle ['\''] l)), okChar c = true :=
    rp_pred _ _ _ _ hok2 (by decide)
  have h4 : nsnFree (rePlace ellipsisChar ['.', '.', '.'] (rePlace dashChar ['-']
      (rePlace smartDouble ['"'] (rePlace smartSingle ['\''] l)))) = true :=
    rp_nsnFree _ _ (by decide) (by decide) _
      (fun c _ _ _ => ⟨by decide, by decide⟩) h3
  have hok4 : ∀ c ∈ rePlace ellipsisChar ['.', '.', '.'] (rePlace dashChar ['-']
      (rePlace smartDouble ['"'] (rePlace smartSingle ['\''] l))), okChar c = true :=
    rp_pred _ _ _ _ hok3 (by decide)
  have h5 : nsnFree (rePlace nbspChar [' ']
      (rePlace ellipsisChar ['.', '.', '.'] (rePlace dashChar ['-']
        (rePlace smartDouble ['"'] (rePlace smartSingle ['\''] l))))) = true :=
    rp_nsnFree _ _ (by decide) (by decide) _
      (fun c _ htc hsc => absurd (nbsp_space htc) (by simp [hsc])) h4
  have hok5 : ∀ c ∈ rePlace nbspChar [' ']
      (rePlace ellipsisChar ['.', '.', '.'] (rePlace dashChar ['-']
        (rePlace smartDouble ['"'] (rePlace smartSingle ['\''] l)))), okChar c = true :=
    rp_pred _ _ _ _ hok4 (by decide)
  have h6 : nsnFree (rePlace uspaceChar [' '] (rePlace nbspChar [' ']
      (rePlace ellipsisChar ['.', '.', '.'] (rePlace dashChar ['-']
        (rePlace smartDouble ['"'] (rePlace smartSingle ['\''] l)))))) = true :=
    rp_nsnFree _ _ (by decide) (by decide) _
      (fun c hc htc hsc => absurd (hok5 c hc)
        (by simp [uspace_not_space_okChar htc hsc])) h5
  have hok6 : ∀ c ∈ rePlace uspaceChar [' '] (rePlace nbspChar [' ']
      (rePlace ellipsisChar ['.', '.', '.'] (rePlace dashChar ['-']
        (rePlace smartDouble ['"'] (rePlace smartSingle ['\''] l))))), okChar c = true :=
    rp_pred _ _ _ _ hok5 (by decide)
  have h7 : nsnFree (rePlace zeroWidthChar [] (rePlace uspaceChar [' ']
      (rePlace nbspChar [' '] (rePlace ellipsisChar ['.', '.', '.']
        (rePlace dashChar ['-'] (rePlace smartDouble ['"']
          (rePlace smartSingle ['\''] l))))))) = true :=
    rp_nsnFree _ _ (by decide) (by decide) _
      (fun c hc htc hsc => absurd (hok6 c hc)
        (by simp [zw_not_space_okChar htc hsc])) h6
  have hok7 : ∀ c ∈ rePlace zeroWidthChar [] (rePlace uspaceChar [' ']
      (rePlace nbspChar [' '] (rePlace ellipsisChar ['.', '.', '.']
        (rePlace dashChar ['-'] (rePlace smartDouble ['"']
          (rePlace smartSingle ['\''] l)))))), okChar c = true :=
    rp_pred _ _ _ _ hok6 (by decide)
  have h8 : nsnFree (rePlace combiningChar [] (rePlace zeroWidthChar []
      (rePlace uspaceChar [' '] (rePlace nbspChar [' ']
        (rePlace ellipsisChar ['.', '.', '.'] (rePlace dashChar ['-']
          (rePlace smartDouble ['"'] (rePlace smartSingle ['\''] l)))))))) = true :=
    rp_nsnFree _ _ (by decide) (by decide) _
      (fun c hc htc _ => absurd (hok7 c hc) (by simp [combining_okChar htc])) h7
  have h9 := rp_nsnFree primeChar ['"'] (by decide) (by decide) _
    (fun c _ _ _ => ⟨by decide, by decide⟩) h8
  have h10 := rp_nsnFree bulletChar ['*'] (by decide) (by decide) _
    (fun c _ _ _ => ⟨by decide, by decide⟩) h9
  have h11 := rp_nsnFree copyrightChar ['(', 'c', ')'] (by decide) (by decide) _
    (fun c _ _ _ => ⟨by decide, by decide⟩) h10
  have h12 := rp_nsnFree registeredChar ['(', 'R', ')'] (by decide) (by decide) _
    (fun c _ _ _ => ⟨by decide, by decide⟩) h11
  exact rp_nsnFree trademarkChar ['(', 'T', 'M', ')'] (by decide) (by decide) _
    (fun c _ _ _ => ⟨by decide, by decide⟩) h12

theorem paraCollapse_mem (l : List Char) (c : Char) (h : c ∈ paraCollapse l) :
    c ∈ l ∨ c = '\n' := para_mem _ _ _ h

theorem spaceCollapse_mem (l : List Char) (c : Char) (h : c ∈ spaceCollapse l) :
    c ∈ l ∨ c = ' ' := sc_mem _ _ _ h

theorem stripNL_mem (l : List Char) (c : Char) (h : c ∈ stripNL l) :
    c ∈ l ∨ c = '\n' := sn_mem _ _ _ h

theorem normalize_facts (s : List Char) (hok : ∀ c ∈ s, okChar c = true) :
    (∀ c ∈ cleanAndNormalizeText s, c ≠ '\r') ∧
    nsnFree (cleanAndNormalizeText s) = true ∧
    (∀ c ∈ cleanAndNormalizeText s, disallowedChar c = false) ∧
    scOK (cleanAndNormalizeText s) = true ∧
    snOK (cleanAndNormalizeText s) = true ∧
    trimOK (cleanAndNormalizeText s) = true := by
  unfold cleanAndNormalizeText
  split
  · exact ⟨fun c hc => absurd hc (List.not_mem_nil c), rfl,
      fun c hc => absurd hc (List.not_mem_nil c), rfl, rfl, rfl⟩
  · simp only [nfd]
    have hcr2 : ∀ c ∈ crmap (crlf s), c ≠ '\r' := crmap_no_cr _
    have hokA : ∀ c ∈ crlf s, okChar c = true := fun c hc =>
      (crlf_mem s c hc).elim (hok c) (fun he => by rw [he]; decide)
    have hok2 : ∀ c ∈ crmap (crlf s), okChar c = true := fun c hc =>
      (crmap_mem _ c hc).elim (hokA c) (fun he => by rw [he]; decide)
    have hcr3 : ∀ c ∈ paraCollapse (crmap (crlf s)), c ≠ '\r' := fun c hc =>
      (paraCollapse_mem _ c hc).elim (hcr2 c) (fun he => by rw [he]; decide)
    have hok3 : ∀ c ∈ paraCollapse (crmap (crlf s)), okChar c = true := fun c hc =>
      (paraCollapse_mem _ c hc).elim (hok2 c) (fun he => by rw [he]; decide)
    have hfree3 : nsnFree (paraCollapse (crmap (crlf s))) = true :=
      para_establish _ _ le_rfl
    have hcr4 := subst_ne_cr _ hcr3
    have hdis4 := subst_disallowed (paraCollapse (crmap (crlf s)))
    have hfree4 := subst_nsnFree _ hok3 hfree3
    have hcr5 : ∀ c ∈ spaceCollapse (substitutions (paraCollapse (crmap (crlf s)))),
        c ≠ '\r' := fun c hc =>
      (spaceCollapse_mem _ c hc).elim (hcr4 c) (fun he => by rw [he]; decide)
    have hdis5 : ∀ c ∈ spaceCollapse (substitutions (paraCollapse (crmap (crlf s)))),
        disallowedChar c = false := fun c hc =>
      (spaceCollapse_mem _ c hc).elim (hdis4 c) (fun he => by rw [he]; decide)
    have hfree5 : nsnFree (spaceCollapse (substitutions (paraCollapse (crmap (crlf s))))) =
        true := sc_nsnFree _ _ hfree4
    have hsc5 : scOK (spaceCollapse (substitutions (paraCollapse (crmap (crlf s))))) =
        true := sc_scOK _ _ le_rfl
    have hcr6 : ∀ c ∈ stripNL (spaceCollapse (substitutions (paraCollapse (crmap (crlf s))))),
        c ≠ '\r' := fun c hc =>
      (stripNL_mem _ c hc).elim (hcr5 c) (fun he => by rw [he]; decide)
    have hdis6 : ∀ c ∈ stripNL (spaceCollapse (substitutions (paraCollapse (crmap (crlf s))))),
        disallowedChar c = false := fun c hc =>
      (stripNL_mem _ c hc).elim (hdis5 c) (fun he => by rw [he]; decide)
    have hfree6 : nsnFree (stripNL (spaceCollapse (substitutions (paraCollapse
        (crmap (crlf s)))))) = true := sn_nsnFree _ _ hfree5
    have hsc6 : scOK (stripNL (spaceCollapse (substitutions (paraCollapse
        (crmap (crlf s)))))) = true := sn_scOK _ _ hsc5
    have hsn6 : snOK (stripNL (spaceCollapse (substitutions (paraCollapse
        (crmap (crlf s)))))) = true := sn_snOK _ _ le_rfl
    refine ⟨fun c hc => hcr6 c (trim_mem _ c hc), nsnFree_trim _ hfree6,
      fun c hc => hdis6 c (trim_mem _ c hc), scOK_trim _ hsc6, snOK_trim _ hsn6,
      trimOK_trim _⟩

theorem normalize_fixpoint (y : List Char)
    (hcr : ∀ c ∈ y, c ≠ '\r')
    (hfree : nsnFree y = true)
    (hdis : ∀ c ∈ y, disallowedChar c = false)
    (hsc : scOK y = true)
    (hsn : snOK y = true)
    (htr : trimOK y = true) :
    cleanAndNormalizeText y = y := by
  unfold cleanAndNormalizeText
  split
  · next he => exact he.symm
  · simp only [nfd]
    rw [crlf_id y hcr, crmap_id y hcr]
    simp only [paraCollapse, spaceCollapse, stripNL]
    rw [para_id y.length y le_rfl hfree, subst_id y hdis, sc_id y.length y le_rfl hsc,
      sn_id y.length y le_rfl hsn hsc, trim_id y htr]

/-- C3 counterexample: the normalizer is not idempotent.  For the input
"a\n\n&#x200C;\nb" (a zero-width non-joiner between newlines) the
paragraph-collapse step runs before zero-width removal, so the first pass
produces "a\n\n\nb", and a second pass collapses the three newlines to
two: normalize(normalize(s)) differs from normalize(s). -/
theorem c3_counterexample :
    cleanAndNormalizeText ['a', '\n', '\n', Char.ofNat 0x200C, '\n', 'b'] =
      ['a', '\n', '\n', '\n', 'b'] ∧
    cleanAndNormalizeText (cleanAndNormalizeText
      ['a', '\n', '\n', Char.ofNat 0x200C, '\n', 'b']) = ['a', '\n', '\n', 'b'] ∧
    cleanAndNormalizeText (cleanAndNormalizeText
        ['a', '\n', '\n', Char.ofNat 0x200C, '\n', 'b']) ≠
      cleanAndNormalizeText ['a', '\n', '\n', Char.ofNat 0x200C, '\n', 'b'] := by
  decide

/-- C3 (amended): the normalizer is idempotent on every input containing
no zero-width characters U+200B-U+200D and no combining marks
U+0300-U+036F — the only characters whose removal (or blank
substitution) happens after the paragraph-collapse pass yet can bring
two newlines together.  Unicode NFD, a host function, is modelled as the
identity (exact for decomposition-free inputs). -/
theorem c3_normalize_idem (s : List Char) (hok : ∀ c ∈ s, okChar c = true) :
    cleanAndNormalizeText (cleanAndNormalizeText s) = cleanAndNormalizeText s := by
  obtain ⟨h1, h2, h3, h4, h5, h6⟩ := normalize_facts s hok
  exact normalize_fixpoint _ h1 h2 h3 h4 h5 h6

/-- Witness for C3 (amended) at a concrete input exercising line-break
unification, paragraph collapse, and blank collapsing. -/
theorem c3_normalize_idem_witness :
    cleanAndNormalizeText (cleanAndNormalizeText "a  b\r\n\n\n\tc".toList) =
      cleanAndNormalizeText "a  b\r\n\n\n\tc".toList :=
  c3_normalize_idem _ (by decide)

/-- C4: the normalizer's output never contains any code point of the
disallowed substitution set (smart quotes, em/en dashes, the ellipsis,
the non-breaking space, the Unicode space/line-separator range, the
zero-width characters, the combining marks, the prime marks, the listed
bullets, and the copyright/registered/trademark signs). -/
theorem c4_no_disallowed_output (s : List Char) :
    (cleanAndNormalizeText s).all (fun c => !disallowedChar c) = true := by
  rw [List.all_eq_true]
  intro c hc
  suffices h : disallowedChar c = false by simpa using h
  unfold cleanAndNormalizeText at hc
  split at hc
  · exact absurd hc (List.not_mem_nil c)
  · have h6 := trim_mem _ _ hc
    rcases stripNL_mem _ c h6 with h5 | he
    · rcases spaceCollapse_mem _ c h5 with h4 | he
      · exact subst_disallowed _ c h4
      · rw [he]; decide
    · rw [he]; decide

end Flow
